import Mathlib

/-!
Verification development for the `take-minutes` repository.

The Python core is embedded shallowly:
  * `src/minutes/models.py`            → the record structures below
  * `src/minutes/extractor_dedup.py`   → `deduplicate_by_similarity`, `cross_category_dedup`,
                                         `deduplicate_by_exact_attr`, `merge_results`
  * `src/minutes/extractor_chunking.py`→ `chunk_transcript` (via `chunkLoop`/`chunkIntervals`)
  * `src/minutes/extractor.py`         → `extract_structured`, `process_transcript`
  * `src/minutes/config.py`            → `MConfig`, `get_chunk_size`
  * `src/minutes/store.py`             → `upsert_session`, `store_embeddings`, `search_vector`,
                                         `search_hybrid`, `rrf_merge`

Machine integers are modelled as `Nat`; SQLite tables as Lean lists; floating-point
scores as exact rationals (the spec states the score formulas exactly); fallible
Python code returns `Except`/`Option`.  The string-similarity function
(`difflib.SequenceMatcher(...).ratio()`) is treated, exactly as §9 of the spec
prescribes, as a substitutable parameter `sim : String → String → ℚ` subject to the
contract "symmetric, 0.0–1.0, 1.0 only for identical strings".
-/

attribute [local semireducible] Rat.add Rat.mul Rat.inv Rat.sub

namespace TakeMinutes

/-- Model of `models.py` `Decision`. -/
structure Decision where
  summary : String
  owner : String := ""
  rationale : String := ""
  date : String := ""
deriving DecidableEq, Repr

/-- Model of `models.py` `Idea`. -/
structure Idea where
  title : String
  description : String := ""
  category : String := "suggestion"
deriving DecidableEq, Repr

/-- Model of `models.py` `Question`. -/
structure Question where
  text : String
  context : String := ""
  owner : String := ""
deriving DecidableEq, Repr

/-- Model of `models.py` `ActionItem`. -/
structure ActionItem where
  description : String
  owner : String := ""
  deadline : String := ""
deriving DecidableEq, Repr

/-- Model of `models.py` `Concept`. -/
structure Concept where
  name : String
  definition : String := ""
deriving DecidableEq, Repr

/-- Model of `models.py` `Term`. -/
structure Term where
  term : String
  definition : String := ""
  context : String := ""
deriving DecidableEq, Repr

/-- Model of `models.py` `ExtractionResult`. -/
structure ExtractionResult where
  decisions : List Decision := []
  ideas : List Idea := []
  questions : List Question := []
  action_items : List ActionItem := []
  concepts : List Concept := []
  terms : List Term := []
  tldr : String := ""
deriving DecidableEq, Repr

/-- The default-constructed `ExtractionResult()` of the Python code. -/
def emptyResult : ExtractionResult := {}

/-! Deduplication (`extractor_dedup.py`). -/

/-- Loop body of `_deduplicate_by_similarity`: walk the remaining items, keeping an
item unless some already-kept item's key has similarity `≥ thr` to its key. -/
def dedupKeepLoop {α : Type} (sim : String → String → ℚ) (thr : ℚ) (key : α → String) :
    List α → List α → List α
  | kept, [] => kept
  | kept, item :: rest =>
    if kept.any (fun k => decide (thr ≤ sim (key item) (key k))) then
      dedupKeepLoop sim thr key kept rest
    else
      dedupKeepLoop sim thr key (kept ++ [item]) rest

/-- Model of `_deduplicate_by_similarity` (threshold argument made explicit;
Python's default is 0.8). -/
def deduplicate_by_similarity {α : Type} (sim : String → String → ℚ) (thr : ℚ)
    (key : α → String) (items : List α) : List α :=
  if items.isEmpty then [] else dedupKeepLoop sim thr key [] items

/-- Python's `str.lower()`, character by character (this is also what Lean's
`String.toLower` computes; `String.mk ∘ List.map Char.toLower ∘ String.data`
is its specification, written out so it reduces). -/
def strLower (s : String) : String := String.mk (s.data.map Char.toLower)

/-- Model of `_cross_category_dedup`: drop items whose lowercased key text has
similarity `≥ thr` to some lowercased reference key text. -/
def cross_category_dedup {α β : Type} (sim : String → String → ℚ) (thr : ℚ)
    (keyI : α → String) (keyR : β → String)
    (items : List α) (reference : List β) : List α :=
  if items.isEmpty || reference.isEmpty then items
  else
    let ref_texts := reference.map (fun r => strLower (keyR r))
    items.filter (fun item =>
      ! ref_texts.any (fun ref => decide (thr ≤ sim (strLower (keyI item)) ref)))

/-- Loop body of `_deduplicate_by_exact_attr` (the Python `seen` set is modelled
as a list of the seen key strings). -/
def dedupExactLoop {α : Type} (key : α → String) :
    List String → List α → List α → List α
  | _, kept, [] => kept
  | seen, kept, item :: rest =>
    if seen.contains (key item) then dedupExactLoop key seen kept rest
    else dedupExactLoop key (key item :: seen) (kept ++ [item]) rest

/-- Model of `_deduplicate_by_exact_attr`. -/
def deduplicate_by_exact_attr {α : Type} (key : α → String) (items : List α) : List α :=
  if items.isEmpty then [] else dedupExactLoop key [] [] items

/-- Python's `max(tldrs, key=len)`: the first string of maximal length wins
(`max` only replaces the champion on a strictly greater key). -/
def longestFirst : List String → String
  | [] => ""
  | t :: ts => ts.foldl (fun best s => if best.length < s.length then s else best) t

/-- The similarity threshold used throughout `extractor_dedup.py` (0.8). -/
def simThreshold : ℚ := 8 / 10

/-- Model of `merge_results` from `extractor_dedup.py`, parameterized by the
similarity function `sim` (see §9 of the spec). -/
def merge_results (sim : String → String → ℚ) (results : List ExtractionResult) :
    ExtractionResult :=
  if results.isEmpty then emptyResult
  else
    let all_decisions := results.flatMap (·.decisions)
    let all_ideas := results.flatMap (·.ideas)
    let all_questions := results.flatMap (·.questions)
    let all_action_items := results.flatMap (·.action_items)
    let all_concepts := results.flatMap (·.concepts)
    let all_terms := results.flatMap (·.terms)
    let decisions := deduplicate_by_similarity sim simThreshold (·.summary) all_decisions
    let ideas0 := deduplicate_by_similarity sim simThreshold (·.title) all_ideas
    let questions := deduplicate_by_similarity sim simThreshold (·.text) all_questions
    let action0 := deduplicate_by_similarity sim simThreshold (·.description) all_action_items
    let action_items :=
      cross_category_dedup sim simThreshold (·.description) (·.summary) action0 decisions
    let ideas := cross_category_dedup sim simThreshold (·.title) (·.summary) ideas0 decisions
    let concepts := deduplicate_by_exact_attr (·.name) all_concepts
    let terms := deduplicate_by_exact_attr (·.term) all_terms
    let tldrs := (results.map (·.tldr)).filter (fun t => ! t.isEmpty)
    { decisions := decisions, ideas := ideas, questions := questions,
      action_items := action_items, concepts := concepts, terms := terms,
      tldr := if tldrs.isEmpty then "" else longestFirst tldrs }

/-! Chunking (`extractor_chunking.py`).  Text is modelled as `List Char`; a chunk is
described by its half-open interval `(start, stop)` into the text. -/

/-- True when a paragraph break (`"\n\n"`) starts at position `p` of `text`. -/
def isParaBreak (text : List Char) (p : Nat) : Bool :=
  text.get? p == some '\n' && text.get? (p + 1) == some '\n'

/-- Model of Python `text.rfind("\n\n", a, b)`: the largest `p` with
`a ≤ p`, `p + 2 ≤ b` and a paragraph break at `p` (`none` for Python's `-1`). -/
def rfindPara (text : List Char) (a b : Nat) : Option Nat :=
  ((List.range b).filter (fun p =>
    decide (a ≤ p) && decide (p + 2 ≤ b) && isParaBreak text p)).max?

/-- The size-based tentative chunk end `min(start + max_size, len(text))`. -/
def sizeEnd (text : List Char) (max_size start : Nat) : Nat :=
  min (start + max_size) text.length

/-- One iteration's chunk end: size-based end, trimmed back to a paragraph break
found in the last `max_size / 4` characters of the window when one exists
strictly after `start`. -/
def chunkEnd (text : List Char) (max_size start : Nat) : Nat :=
  if sizeEnd text max_size start < text.length then
    match rfindPara text (max start (sizeEnd text max_size start - max_size / 4))
        (sizeEnd text max_size start) with
    | some p => if start < p then p + 2 else sizeEnd text max_size start
    | none => sizeEnd text max_size start
  else sizeEnd text max_size start

/-- Next start position: `end − overlap`, forced to `end` when that would not
strictly advance. -/
def nextStart (overlap start e : Nat) : Nat :=
  if e - overlap ≤ start then e else e - overlap

/-- The `while start < len(text)` loop of `chunk_transcript`, with explicit fuel
(the Python loop diverges for `max_size = 0`; every claim below assumes
`overlap < max_size`, under which fuel `text.length` is proved sufficient). -/
def chunkLoop (text : List Char) (max_size overlap : Nat) : Nat → Nat → List (Nat × Nat)
  | 0, _ => []
  | fuel + 1, start =>
    if start < text.length then
      let e := chunkEnd text max_size start
      (start, e) :: chunkLoop text max_size overlap fuel (nextStart overlap start e)
    else []

/-- Intervals of the chunks produced by `chunk_transcript`. -/
def chunkIntervals (text : List Char) (max_size overlap : Nat) : List (Nat × Nat) :=
  if text.length ≤ max_size then [(0, text.length)]
  else chunkLoop text max_size overlap text.length 0

/-- Model of `chunk_transcript`: each appended chunk is the slice
`text[start:end]`; the trailing `chunks if chunks else [text]` guard is kept. -/
def chunk_transcript (text : List Char) (max_size overlap : Nat) : List (List Char) :=
  if text.length ≤ max_size then [text]
  else if ((chunkLoop text max_size overlap text.length 0).map
      (fun p => (text.drop p.1).take (p.2 - p.1))).isEmpty then [text]
  else (chunkLoop text max_size overlap text.length 0).map
    (fun p => (text.drop p.1).take (p.2 - p.1))

/-! Configuration (`config.py`). -/

/-- Model of `Config` (the fields the core pipeline reads).  A tier threshold of
`none` models `math.inf`. -/
structure MConfig where
  max_chunk_size : Nat := 12000
  chunk_overlap : Nat := 200
  max_retries : Nat := 3
  chunk_size_override : Bool := false
  chunk_tiers : List (Option Nat × Nat) :=
    [(some 1000000, 12000), (some 10000000, 18000), (some 50000000, 24000), (none, 24000)]
deriving DecidableEq, Repr

/-- Model of `Config.get_chunk_size`: explicit override wins, else the first tier
whose threshold exceeds the file size, else the last tier's size (the Python
`chunk_tiers[-1][1]`; an empty tier table raises there, modelled by the
`getD` default which no caller with the shipped config reaches). -/
def get_chunk_size (cfg : MConfig) (file_size_bytes : Nat) : Nat :=
  if cfg.chunk_size_override then cfg.max_chunk_size
  else
    match cfg.chunk_tiers.find? (fun t =>
      match t.1 with
      | none => true
      | some thr => decide (file_size_bytes < thr)) with
    | some t => t.2
    | none => ((cfg.chunk_tiers.getLast?).map (·.2)).getD cfg.max_chunk_size

/-! Extraction (`extractor.py`). -/

/-- Outcome of one loop attempt of `extract_structured`: the collaborator call plus
parsing either yields a validated record, fails with an exception the `except`
clause catches (`json.JSONDecodeError` or `ValueError`, i.e. unparseable or
invalid data), or raises any other exception (e.g. a network error from the
underlying `openai` client), which the clause does not catch. -/
inductive AttemptOutcome where
  | ok (result : ExtractionResult)
  | parseFailure
  | raised
deriving DecidableEq, Repr

/-- The `for attempt in range(max_retries)` loop of `extract_structured`; fuel is
`max_retries − attempt`.  Returns the overall outcome (`Except.error` models an
uncaught exception propagating out of the function) together with the number of
collaborator attempts that were executed. -/
def extractGo (attempts : Nat → AttemptOutcome) (max_retries : Nat) :
    Nat → Nat → (Except Unit ExtractionResult) × Nat
  | 0, _ => (.ok emptyResult, 0)
  | fuel + 1, attempt =>
    match attempts attempt with
    | .ok r => (.ok r, 1)
    | .raised => (.error (), 1)
    | .parseFailure =>
      if attempt == max_retries - 1 then (.ok emptyResult, 1)
      else
        let rest := extractGo attempts max_retries fuel (attempt + 1)
        (rest.1, rest.2 + 1)

/-- Model of `extract_structured`, parameterized by the per-attempt collaborator
outcome. -/
def extract_structured (attempts : Nat → AttemptOutcome) (max_retries : Nat) :
    (Except Unit ExtractionResult) × Nat :=
  extractGo attempts max_retries max_retries 0

/-- Modelled from the spec: one stored `ChunkProgressEntry` as returned by the
chunk-progress store's `get` operation.  The store implementation
(`get_chunk_progress` / `save_chunk_result` / `clear_chunk_progress`) is not
among the provided source files — only its schema (`store_schema.py`) and its
callers are — so per §4.2 "get(session_id, hash) → ordered completed entries"
it is modelled as the list of entries handed to `process_transcript`. -/
structure ChunkEntry where
  chunk_index : Nat
  chunk_size : Nat
  total_chunks : Nat
  result : ExtractionResult
deriving DecidableEq, Repr

/-- Model of `process_transcript`.  `extract` is `extract_structured` specialised
to the backend and config (the per-chunk collaborator call), `cleanup` is
`cleanup_result` from `extractor_cleanup.py` (a deterministic post-pass applied
once to the final record, which the resumption claims hold for uniformly),
`prior` is the chunk-progress store's `get` result and `useStore` the
`store and session_id and file_hash` guard.  Returns the final record together
with the list of chunk indices for which the extraction collaborator was
invoked, in invocation order.  The store writes (`save_chunk_result`,
`clear_chunk_progress`) mutate only the progress store, not the result. -/
def process_transcript (sim : String → String → ℚ)
    (extract : List Char → ExtractionResult)
    (cleanup : ExtractionResult → List Char → ExtractionResult)
    (cfg : MConfig) (transcript : List Char) (file_size : Nat)
    (useStore : Bool) (prior : List ChunkEntry) : ExtractionResult × List Nat :=
  if transcript.isEmpty then (emptyResult, [])
  else
    let effective := if file_size != 0 then get_chunk_size cfg file_size
                     else cfg.max_chunk_size
    if transcript.length ≤ effective then
      (cleanup (extract transcript) transcript, [0])
    else
      let chunks := chunk_transcript transcript effective cfg.chunk_overlap
      let total := chunks.length
      let completed : List (Nat × ExtractionResult) :=
        if useStore then
          match prior with
          | [] => []
          | e :: _ =>
            if e.total_chunks == total && e.chunk_size == effective then
              prior.map (fun en => (en.chunk_index, en.result))
            else []
        else []
      let folded := chunks.enum.foldl
        (fun (acc : List ExtractionResult × List Nat) ic =>
          match completed.find? (fun p => p.1 == ic.1) with
          | some p => (acc.1 ++ [p.2], acc.2)
          | none => (acc.1 ++ [extract ic.2], acc.2 ++ [ic.1]))
        ([], [])
      (cleanup (merge_results sim folded.1) transcript, folded.2)

/-! The store (`store.py`).  SQLite tables are modelled as Lean lists; the
`AUTOINCREMENT` item id as an explicit `nextItemId` counter.  Each store method
commits once at its end, so it is modelled as a single state transition. -/

/-- One row of the `items` table. -/
structure ItemRow where
  id : Nat
  session_id : String
  category : String
  content : String
  detail : Option String
  owner : Option String
  date : Option String
deriving DecidableEq, Repr

/-- One row of the `sessions` table. -/
structure SessionRow where
  id : String
  project_key : String
  input_file : String
  output_file : String
  file_hash : String
  extracted_at : String
  file_size : Nat
  message_count : Nat
  transcript_chars : Nat
  decisions : Nat
  ideas : Nat
  questions : Nat
  action_items : Nat
  concepts : Nat
  terms : Nat
  tldr : String
deriving DecidableEq, Repr

/-- One row of the `item_embeddings` table (embedding BLOB as an exact vector). -/
structure EmbRow where
  item_id : Nat
  model : String
  embedding : List ℚ
deriving DecidableEq, Repr

/-- One row of the standalone `items_fts` FTS5 table. -/
structure FtsRow where
  rowid : Nat
  content : String
  detail : String
deriving DecidableEq, Repr

/-- The database state of a `MinutesStore`. -/
structure StoreState where
  sessions : List SessionRow
  items : List ItemRow
  nextItemId : Nat
  embeddings : List EmbRow
  fts : List FtsRow
deriving DecidableEq, Repr

/-- The `items_to_insert` list built by `upsert_session`:
`(category, content, detail, owner, date)` tuples in the code's order. -/
def itemsToInsert (result : ExtractionResult) :
    List (String × String × Option String × Option String × Option String) :=
  result.decisions.map (fun d => ("decision", d.summary, some d.rationale, some d.owner, some d.date))
  ++ result.ideas.map (fun i => ("idea", i.title, some i.description, none, none))
  ++ result.questions.map (fun q => ("question", q.text, some q.context, some q.owner, none))
  ++ result.action_items.map (fun a => ("action_item", a.description, none, some a.owner, some a.deadline))
  ++ result.concepts.map (fun c => ("concept", c.name, some c.definition, none, none))
  ++ result.terms.map (fun t => ("term", t.term, some t.definition, none, none))

/-- The item-insert loop of `upsert_session`: `INSERT OR IGNORE` on the
`(session_id, category, content)` unique key; only an actually inserted row
(`cursor.lastrowid` non-null) gets an `items_fts` row, with `detail or ""`. -/
def insertItems (session_id : String) :
    StoreState → List (String × String × Option String × Option String × Option String) →
    StoreState
  | st, [] => st
  | st, (category, content, detail, owner, date) :: rest =>
    if st.items.any (fun it =>
        it.session_id == session_id && it.category == category && it.content == content) then
      insertItems session_id st rest
    else
      insertItems session_id
        { st with
          items := st.items ++ [⟨st.nextItemId, session_id, category, content, detail, owner, date⟩],
          fts := st.fts ++ [⟨st.nextItemId, content, detail.getD ""⟩],
          nextItemId := st.nextItemId + 1 }
        rest

/-- Model of `MinutesStore.upsert_session`.  In order: collect the session's old
item ids, delete their FTS rows, delete the items (the `ON DELETE CASCADE`
foreign key removes their embeddings), `INSERT OR REPLACE` the session row
(`now` stands for `datetime.now().isoformat()`), then insert the new items and
their FTS rows.  All of it commits once, hence one state transition: no
intermediate state is observable. -/
def upsert_session (st : StoreState) (session_id project_key input_file : String)
    (result : ExtractionResult) (output_file file_hash : String)
    (file_size message_count transcript_chars : Nat) (now : String) : StoreState :=
  let old_ids := (st.items.filter (fun it => it.session_id == session_id)).map (·.id)
  let sess : SessionRow :=
    ⟨session_id, project_key, input_file, output_file, file_hash, now,
     file_size, message_count, transcript_chars,
     result.decisions.length, result.ideas.length, result.questions.length,
     result.action_items.length, result.concepts.length, result.terms.length,
     result.tldr⟩
  insertItems session_id
    { sessions := (st.sessions.filter (fun s => ! s.id == session_id)) ++ [sess],
      items := st.items.filter (fun it => ! it.session_id == session_id),
      nextItemId := st.nextItemId,
      embeddings := st.embeddings.filter (fun e => ! old_ids.contains e.item_id),
      fts := st.fts.filter (fun f => ! old_ids.contains f.rowid) }
    (itemsToInsert result)

/-- Model of `MinutesStore.store_embeddings`: `INSERT OR REPLACE` keyed on
`(item_id, model)` for each row. -/
def store_embeddings (st : StoreState) (rows : List (Nat × List ℚ)) (model : String) :
    StoreState :=
  rows.foldl (fun s r =>
    { s with embeddings :=
        (s.embeddings.filter (fun e => ! (e.item_id == r.1 && e.model == model)))
        ++ [⟨r.1, model, r.2⟩] }) st

/-- Model of `MinutesStore.get_item`: the item joined with its session row
(`none` when either is missing, as the SQL inner join drops the row). -/
def get_item (st : StoreState) (item_id : Nat) : Option ItemRow :=
  match st.items.find? (fun it => it.id == item_id) with
  | none => none
  | some it =>
    match st.sessions.find? (fun s => s.id == it.session_id) with
    | none => none
    | some _ => some it

/-! Python's `sorted` and the SQL `ORDER BY` are stable sorts; both are modelled
by Mathlib's stable `List.insertionSort r`, which keeps elements with
equivalent keys in their original order (exactly like `sorted` with
`reverse=True`, which is also stable). -/

/-! Vector search (`search_vector`).  `np.linalg.norm` is kept as a parameter
`norm : List ℚ → ℚ` (the Euclidean norm is irrational in general; every claim
proved below holds for any function in its place, and witnesses instantiate it
with the squared norm, which vanishes on exactly the same vectors). -/

/-- The `norms[norms == 0] = 1` guard of `search_vector`: the divisor used to
normalize a stored embedding row. -/
def guardedNorm (norm : List ℚ → ℚ) (v : List ℚ) : ℚ :=
  if norm v = 0 then 1 else norm v

/-- Inner product of two vectors. -/
def dot (v w : List ℚ) : ℚ := (List.zipWith (· * ·) v w).sum

/-- Model of `get_all_embeddings`: rows of the given model, `ORDER BY item_id`. -/
def get_all_embeddings (st : StoreState) (model : String) : List (Nat × List ℚ) :=
  List.insertionSort (fun f e => f.1 ≤ e.1)
    ((st.embeddings.filter (fun e => e.model == model)).map (fun e => (e.item_id, e.embedding)))

/-- Model of `MinutesStore.search_vector`.  The ephemeral
`faiss.IndexFlatIP` exact inner-product search is modelled as a stable
descending sort of the inner-product scores, truncated to
`k = min(limit, len(item_ids))`; `faiss` itself is an external library. -/
def search_vector (norm : List ℚ → ℚ) (st : StoreState) (query_embedding : List ℚ)
    (category : Option String) (limit : Nat) (model : String) : List (ItemRow × ℚ) :=
  let pairs := get_all_embeddings st model
  if pairs.isEmpty then []
  else
    let pairs1 : List (Nat × List ℚ) :=
      match category with
      | none => pairs
      | some c =>
        let valid_ids : List Nat := (st.embeddings.filter (fun e =>
          st.items.any (fun it => it.id == e.item_id && it.category == c))).map (·.item_id)
        pairs.filter (fun p => valid_ids.contains p.1)
    if pairs1.isEmpty then []
    else
      let query_norm := norm query_embedding
      if query_norm = 0 then []
      else
        let q := query_embedding.map (· / query_norm)
        let scored : List (Nat × ℚ) :=
          pairs1.map (fun p => (p.1, dot q (p.2.map (· / guardedNorm norm p.2))))
        let ranked := List.insertionSort (fun f e => e.2 ≤ f.2) scored
        (ranked.take (min limit pairs1.length)).filterMap
          (fun p => (get_item st p.1).map (fun it => (it, p.2)))

/-! Hybrid search and RRF (`search_hybrid`, `_rrf_merge`).  The two search
sources are parameters: the claims quantify over their outcomes, and an
exception raised by a source is an explicit `SourceOutcome.failed`. -/

/-- Minimal model of a search-result dict: its `id` key plus whether the
`session_file` key is present (the only payload fact `search_hybrid` reads). -/
structure HItem where
  id : Nat
  hasSessionFile : Bool
deriving DecidableEq, Repr

/-- Python `item_map[item_id].update(item)` restricted to the modelled fields:
`id` is overwritten with the (identical) id; the `session_file` key stays
present if either dict has it. -/
def updateHItem (old new : HItem) : HItem :=
  ⟨new.id, old.hasSessionFile || new.hasSessionFile⟩

/-- One inner-loop step of `_rrf_merge`: a fresh item id appends a new
`score_map`/`item_map` entry with score `1 / (k + rank)`; a repeated id
accumulates the reciprocal onto its entry and `dict.update`s the stored item. -/
def rrfUpsert (k : Nat) (rank : Nat) (item : HItem) (acc : List (Nat × HItem × ℚ)) :
    List (Nat × HItem × ℚ) :=
  if acc.any (fun e => e.1 == item.id) then
    acc.map (fun e =>
      if e.1 == item.id then (e.1, updateHItem e.2.1 item, e.2.2 + 1 / ((k : ℚ) + rank))
      else e)
  else acc ++ [(item.id, item, 1 / ((k : ℚ) + rank))]

/-- The double loop of `_rrf_merge`, building the insertion-ordered
`score_map`/`item_map` (one association list keyed by item id): `rank` is the
1-based position, each occurrence adds `1 / (k + rank)`. -/
def rrfAddFrom (k : Nat) : Nat → List HItem → List (Nat × HItem × ℚ) →
    List (Nat × HItem × ℚ)
  | _, [], acc => acc
  | rank, item :: rest, acc => rrfAddFrom k (rank + 1) rest (rrfUpsert k rank item acc)

/-- The score/item maps of `_rrf_merge` after all ranked lists are folded in. -/
def rrfScoreMap (ranked_lists : List (List HItem)) (k : Nat) : List (Nat × HItem × ℚ) :=
  ranked_lists.foldl (fun acc l => rrfAddFrom k 1 l acc) []

/-- The entries `_rrf_merge` builds from a single ranked list of fresh items:
one per item in list order, with scores `1/(k+rank)`, `rank` starting at `r`. -/
def rankedEntries (k : Nat) : Nat → List HItem → List (Nat × HItem × ℚ)
  | _, [] => []
  | r, item :: rest => (item.id, item, 1 / ((k : ℚ) + r)) :: rankedEntries k (r + 1) rest

/-- Model of `_rrf_merge` (default `k = 60`): sort the accumulated entries by
fused score descending (Python's `sorted(..., reverse=True)` is stable) and
emit each item with its `rrf_score`. -/
def rrf_merge (ranked_lists : List (List HItem)) (k : Nat) : List (HItem × ℚ) :=
  (List.insertionSort (fun f e => e.2.2 ≤ f.2.2) (rrfScoreMap ranked_lists k)).map
    (fun e => (e.2.1, e.2.2))

/-- Outcome of one search source inside `search_hybrid`: a result list, or an
exception caught by the surrounding `try`/`except`. -/
inductive SourceOutcome where
  | ok (items : List HItem)
  | failed
deriving DecidableEq, Repr

/-- The `ranked_lists` built at the top of `search_hybrid`: a failed or empty
source contributes no list. -/
def aux_hybrid_lists (kw : SourceOutcome) (vec : Option SourceOutcome) :
    List (List HItem) :=
  (match kw with
   | .ok l => if l.isEmpty then [] else [l]
   | .failed => []) ++
  (match vec with
   | some (.ok l) => if l.isEmpty then [] else [l]
   | some .failed => []
   | none => [])

/-- Model of `MinutesStore.search_hybrid`.  `kw` is the keyword source's outcome,
`vec` the vector source's (`none` when `query_embedding is None`); a failed or
empty source contributes no ranked list.  After fusion the merged list is
truncated to `limit` and items without session info are re-read through
`get_item_fn` (kept as returned when the lookup misses). -/
def search_hybrid (kw : SourceOutcome) (vec : Option SourceOutcome)
    (get_item_fn : Nat → Option HItem) (limit : Nat) : List HItem :=
  if (aux_hybrid_lists kw vec).isEmpty then []
  else
    ((rrf_merge (aux_hybrid_lists kw vec) 60).take limit).map (fun e =>
      if e.1.hasSessionFile then e.1
      else
        match get_item_fn e.1.id with
        | some full => full
        | none => e.1)

/-! Spec-side definitions and proof-support definitions. -/

/-- Fused score an item id should get according to the spec's words: the sum,
over the ranked lists containing the item, of `1 / (k + rank)` with `rank` its
1-based position in that list. -/
def rrfSpecScore (ranked_lists : List (List HItem)) (k : Nat) (item_id : Nat) : ℚ :=
  ((ranked_lists.filter (fun l => decide (item_id ∈ l.map (·.id)))).map
    (fun l => 1 / ((k : ℚ) + (((l.map (·.id)).indexOf item_id : Nat) + 1)))).sum

/-- Score lookup in the association list built by `rrfAddFrom` (0 when absent,
matching a freshly created `score_map` entry). -/
def scoreOf (m : List (Nat × HItem × ℚ)) (x : Nat) : ℚ :=
  ((m.find? (fun e => e.1 == x)).map (fun e => e.2.2)).getD 0

/-- The indexable payload of an item row: everything except the generated id and
the session id. -/
def itemPayload (it : ItemRow) :
    String × String × Option String × Option String × Option String :=
  (it.category, it.content, it.detail, it.owner, it.date)

/-- The session's rows of the `items` table. -/
def sessionItems (st : StoreState) (session_id : String) : List ItemRow :=
  st.items.filter (fun it => it.session_id == session_id)

/-- The FTS row written for an inserted item. -/
def ftsOf (it : ItemRow) : FtsRow := ⟨it.id, it.content, it.detail.getD ""⟩

/-- First-wins selection on the `(category, content)` key, accumulating the keys
already seen. -/
def specQueryableAux :
    List (String × String) →
    List (String × String × Option String × Option String × Option String) →
    List (String × String × Option String × Option String × Option String)
  | _, [] => []
  | seen, t :: rest =>
    if seen.contains (t.1, t.2.1) then specQueryableAux seen rest
    else t :: specQueryableAux ((t.1, t.2.1) :: seen) rest

/-- The queryable item payloads a session should hold after indexing `result`,
per the spec: one row per distinct `(category, content)` key of the record's
items (duplicate inserts are no-ops), first occurrence's fields, in record
order. -/
def specQueryableItems (result : ExtractionResult) :
    List (String × String × Option String × Option String × Option String) :=
  specQueryableAux [] (itemsToInsert result)

/-- The rows `insertItems` actually adds, starting from fresh id `nid`, when the
keys in `seen` (and only those) are already present for the session. -/
def newItemsAux (session_id : String) :
    Nat → List (String × String) →
    List (String × String × Option String × Option String × Option String) →
    List ItemRow
  | _, _, [] => []
  | nid, seen, (category, content, detail, owner, date) :: rest =>
    if seen.contains (category, content) then newItemsAux session_id nid seen rest
    else ⟨nid, session_id, category, content, detail, owner, date⟩ ::
      newItemsAux session_id (nid + 1) ((category, content) :: seen) rest

/-- Well-formedness of a store state: item ids are unique and every id-bearing
row stays below the autoincrement counter (true of every state the store
reaches, and preserved by the operations modelled here). -/
def StoreWF (st : StoreState) : Prop :=
  (st.items.map (·.id)).Nodup ∧
  (∀ it ∈ st.items, it.id < st.nextItemId) ∧
  (∀ f ∈ st.fts, f.rowid < st.nextItemId) ∧
  (∀ e ∈ st.embeddings, e.item_id < st.nextItemId)

/-- Squared Euclidean norm: vanishes on exactly the vectors `np.linalg.norm`
vanishes on; used to instantiate the abstract `norm` parameter in witnesses. -/
def sumSq (v : List ℚ) : ℚ := (v.map (fun x => x * x)).sum

/-- Discrete similarity: 1 on identical strings, 0 otherwise.  It satisfies the
spec's similarity contract (symmetric, range 0–1, 1 only on identical strings)
and instantiates the abstract `sim` parameter in witnesses. -/
def simEq (a b : String) : ℚ := if a = b then 1 else 0

/-- A similarity satisfying the spec's contract that rates case-variants of the
same text at 0.9 — as `difflib`'s ratio does for realistic texts, e.g.
`SequenceMatcher(None, "Use PostgreSQL for storage", "use PostgreSQL for
storage").ratio() ≈ 0.96`. -/
def simCaseFold (a b : String) : ℚ :=
  if a = b then 1 else if strLower a = strLower b then 9 / 10 else 0

/-- Adversarial text for the chunking step-count bound: 9 filler characters
followed by a paragraph break every third character, so that the
paragraph-trimming branch fires on every window. -/
def chunkCounterText : List Char :=
  List.replicate 9 'a' ++ (List.replicate 17 ['\n', '\n', 'a']).flatten

/-- A 50-character text that splits into exactly five 10-character chunks with
`max_size = 10`, `overlap = 0`. -/
def fiveChunkText : List Char := List.replicate 50 'a'

/-- Concrete extraction collaborator for the resumption witness: records the
chunk verbatim as the tldr. -/
def c3ext (c : List Char) : ExtractionResult := { tldr := String.mk c }

/-- Config for the resumption witness: 10-char chunks, no overlap. -/
def c3cfg : MConfig := { max_chunk_size := 10, chunk_overlap := 0 }

/-- The five chunks of `fiveChunkText` under `c3cfg`. -/
def c3chs : List (List Char) := chunk_transcript fiveChunkText 10 0

/-- Stored progress entry for chunk 1 of the resumption witness. -/
def c3ea : ChunkEntry := ⟨1, 10, 5, c3ext (c3chs.getD 1 [])⟩

/-- Stored progress entry for chunk 3 of the resumption witness. -/
def c3eb : ChunkEntry := ⟨3, 10, 5, c3ext (c3chs.getD 3 [])⟩

/-- Empty store for the re-indexing witness. -/
def c2st0 : StoreState := ⟨[], [], 0, [], []⟩

/-- First extraction record of the re-indexing witness. -/
def c2R1 : ExtractionResult :=
  { decisions := [{ summary := "ship v1" }], tldr := "first pass" }

/-- Second extraction record of the re-indexing witness. -/
def c2R2 : ExtractionResult :=
  { ideas := [{ title := "use cache" }], tldr := "second pass" }

/-- Store after the first `upsert_session` call of the re-indexing witness. -/
def c2st1 : StoreState := upsert_session c2st0 "s" "pk" "in" c2R1 "out" "h1" 1 2 3 "t1"

/-- Store after `store_embeddings` for the first call's item. -/
def c2stE : StoreState := store_embeddings c2st1 [(0, [1, 0])] "m"

/-- Store after the second `upsert_session` call of the re-indexing witness. -/
def c2st2 : StoreState := upsert_session c2stE "s" "pk" "in" c2R2 "out" "h2" 1 2 3 "t2"

/-! Theorems.  Lemmas named `aux_*` are shared helpers; each claim `Cn` has one
main theorem, plus a witness or counterexample where required. -/

theorem aux_extractGo_calls_le (attempts : Nat → AttemptOutcome) (maxR : Nat) :
    ∀ fuel attempt, (extractGo attempts maxR fuel attempt).2 ≤ fuel := by
  intro fuel
  induction fuel with
  | zero => intro attempt; simp [extractGo]
  | succ n ih =>
    intro attempt
    simp only [extractGo]
    cases h : attempts attempt with
    | ok r => simp
    | raised => simp
    | parseFailure =>
      by_cases he : attempt == maxR - 1
      · simp [he]
      · simp only [he, if_false, Bool.false_eq_true]
        exact Nat.succ_le_succ (ih (attempt + 1))

theorem aux_extractGo_ok (attempts : Nat → AttemptOutcome) (maxR : Nat)
    (hnr : ∀ i, i < maxR → attempts i ≠ .raised) :
    ∀ fuel attempt, attempt + fuel = maxR →
      ∃ r, (extractGo attempts maxR fuel attempt).1 = .ok r := by
  intro fuel
  induction fuel with
  | zero => intro attempt _; exact ⟨emptyResult, rfl⟩
  | succ n ih =>
    intro attempt hsum
    have hlt : attempt < maxR := by omega
    simp only [extractGo]
    cases h : attempts attempt with
    | ok r => exact ⟨r, rfl⟩
    | raised => exact absurd h (hnr attempt hlt)
    | parseFailure =>
      by_cases he : attempt == maxR - 1
      · simp only [he, if_true]; exact ⟨emptyResult, rfl⟩
      · simp only [he, if_false, Bool.false_eq_true]
        exact ih (attempt + 1) (by omega)

theorem aux_extractGo_all_parse (attempts : Nat → AttemptOutcome) (maxR : Nat)
    (hp : ∀ i, i < maxR → attempts i = .parseFailure) :
    ∀ fuel attempt, attempt + fuel = maxR →
      extractGo attempts maxR fuel attempt = (.ok emptyResult, fuel) := by
  intro fuel
  induction fuel with
  | zero => intro attempt _; rfl
  | succ n ih =>
    intro attempt hsum
    have hlt : attempt < maxR := by omega
    simp only [extractGo, hp attempt hlt]
    by_cases he : attempt == maxR - 1
    · have heq : attempt = maxR - 1 := by simpa using he
      have hn0 : n = 0 := by omega
      simp [he, hn0]
    · have hne : attempt ≠ maxR - 1 := by
        intro hc; exact he (by simp [hc])
      simp only [he, if_false, Bool.false_eq_true]
      rw [ih (attempt + 1) (by omega)]

/-- C4 counterexample: the claim says no collaborator failure ever propagates
out of `extract_structured`, but the `except` clause catches only
`json.JSONDecodeError` and `ValueError`.  When the extraction call itself
raises anything else (e.g. a connection error from the `openai` client), the
exception escapes on the very first attempt: the run ends in `.error`, not in
a retried empty result. -/
theorem extract_structured_raises_on_call_error :
    extract_structured (fun _ => .raised) 3 = (.error (), 1) := rfl

/-- C4 (amended): for the failure modes the `except (json.JSONDecodeError,
ValueError)` clause covers — unparseable output and validation failure —
`extract_structured` never propagates an exception, makes at most
`max_retries` collaborator attempts, and returns the empty
`ExtractionResult` after the final failed attempt; exceptions outside that
clause (e.g. errors raised by the extraction call itself) propagate. -/
theorem extract_structured_retry_then_empty (attempts : Nat → AttemptOutcome)
    (maxR : Nat) (hnr : ∀ i, i < maxR → attempts i ≠ .raised) :
    (∃ r, (extract_structured attempts maxR).1 = .ok r) ∧
    (extract_structured attempts maxR).2 ≤ maxR ∧
    ((∀ i, i < maxR → attempts i = .parseFailure) →
      extract_structured attempts maxR = (.ok emptyResult, maxR)) := by
  refine ⟨aux_extractGo_ok attempts maxR hnr maxR 0 (by omega), ?_, ?_⟩
  · exact aux_extractGo_calls_le attempts maxR maxR 0
  · intro hp
    exact aux_extractGo_all_parse attempts maxR hp maxR 0 (by omega)

/-- C4 witness: three consecutive parse failures under `max_retries = 3` yield
the empty record after exactly three collaborator attempts, with no exception. -/
theorem extract_structured_retry_then_empty_witness :
    (∀ i, i < 3 → (fun _ => AttemptOutcome.parseFailure) i ≠ .raised) ∧
    extract_structured (fun _ => .parseFailure) 3 = (.ok emptyResult, 3) := by
  refine ⟨by decide, ?_⟩
  exact (extract_structured_retry_then_empty (fun _ => .parseFailure) 3
    (by decide)).2.2 (by decide)

/-- C9: when the query embedding has zero norm, `search_vector` returns the
empty list before any normalization happens; and the
`norms[norms == 0] = 1` replacement makes every stored-row divisor nonzero,
so the normalization of stored embeddings never divides by zero.  The theorem
holds for any function in place of `np.linalg.norm`. -/
theorem search_vector_zero_norm_safe (norm : List ℚ → ℚ) (st : StoreState)
    (q : List ℚ) (category : Option String) (limit : Nat) (model : String)
    (h : norm q = 0) :
    search_vector norm st q category limit model = [] ∧
    ∀ v, guardedNorm norm v ≠ 0 := by
  constructor
  · simp only [search_vector, h]
    split
    · rfl
    · split
      · rfl
      · simp
  · intro v
    unfold guardedNorm
    split
    · exact one_ne_zero
    · assumption

/-- C9 witness: a concrete store with one embedding, the all-zeros query under
the squared Euclidean norm (which vanishes exactly where `np.linalg.norm`
does): the search returns `[]` and the stored zero vector's divisor is 1 ≠ 0. -/
theorem search_vector_zero_norm_safe_witness :
    search_vector sumSq ⟨[], [], 1, [⟨1, "m", [0, 0]⟩], []⟩ [0, 0] none 10 "m" = [] ∧
    ∀ v, guardedNorm sumSq v ≠ 0 := by
  have h := search_vector_zero_norm_safe sumSq ⟨[], [], 1, [⟨1, "m", [0, 0]⟩], []⟩
    [0, 0] none 10 "m" (by decide)
  exact ⟨h.1, h.2⟩

theorem aux_scoreOf_nil (x : Nat) : scoreOf [] x = 0 := rfl

theorem aux_scoreOf_cons (e : Nat × HItem × ℚ) (m : List (Nat × HItem × ℚ)) (x : Nat) :
    scoreOf (e :: m) x = if e.1 == x then e.2.2 else scoreOf m x := by
  simp only [scoreOf, List.find?_cons]
  split
  · rename_i h
    rw [if_pos (by simpa using h)]
    rfl
  · rename_i h
    rw [if_neg (by simpa using h)]

theorem aux_scoreOf_map_update (d : ℚ) (item : HItem) :
    ∀ (acc : List (Nat × HItem × ℚ)) (x : Nat),
      scoreOf (acc.map (fun e =>
          if e.1 == item.id then (e.1, updateHItem e.2.1 item, e.2.2 + d) else e)) x =
        scoreOf acc x + (if x = item.id ∧ ∃ e ∈ acc, e.1 = x then d else 0) := by
  intro acc
  induction acc with
  | nil => intro x; simp [aux_scoreOf_nil]
  | cons e es ih =>
    intro x
    have hkey : (if e.1 == item.id then
        ((e.1, updateHItem e.2.1 item, e.2.2 + d) : Nat × HItem × ℚ) else e).1 = e.1 := by
      split <;> rfl
    simp only [List.map_cons]
    rw [aux_scoreOf_cons, aux_scoreOf_cons, hkey]
    by_cases hex : e.1 = x
    · have hbx : (e.1 == x) = true := by simpa using hex
      rw [if_pos hbx, if_pos hbx]
      have hhead : ∃ f ∈ e :: es, f.1 = x := ⟨e, List.mem_cons_self _ _, hex⟩
      by_cases hxi : x = item.id
      · have hei : (e.1 == item.id) = true := by
          simp [hex, hxi]
        rw [if_pos hei,
          if_pos (show x = item.id ∧ ∃ f ∈ e :: es, f.1 = x from ⟨hxi, hhead⟩)]
      · have hei : ¬ (e.1 == item.id) = true := fun hb =>
          hxi (hex.symm.trans (beq_iff_eq.mp hb))
        rw [if_neg hei,
          if_neg (show ¬ (x = item.id ∧ ∃ f ∈ e :: es, f.1 = x) from fun hc => hxi hc.1)]
        ring
    · rw [if_neg (by simpa using hex), if_neg (by simpa using hex), ih x]
      have hcond : (x = item.id ∧ ∃ f ∈ es, f.1 = x) ↔
          (x = item.id ∧ ∃ f ∈ e :: es, f.1 = x) := by
        constructor
        · rintro ⟨h1, f, hf, h2⟩
          exact ⟨h1, f, List.mem_cons_of_mem _ hf, h2⟩
        · rintro ⟨h1, f, hf, h2⟩
          rcases List.mem_cons.mp hf with rfl | hf
          · exact absurd h2 hex
          · exact ⟨h1, f, hf, h2⟩
      by_cases hx2 : x = item.id ∧ ∃ f ∈ es, f.1 = x
      · rw [if_pos hx2, if_pos (hcond.mp hx2)]
      · rw [if_neg hx2, if_neg (fun hc => hx2 (hcond.mpr hc))]

theorem aux_scoreOf_append_fresh (y : Nat) (it : HItem) (d : ℚ) :
    ∀ (acc : List (Nat × HItem × ℚ)) (x : Nat), (∀ e ∈ acc, e.1 ≠ y) →
      scoreOf (acc ++ [(y, it, d)]) x = scoreOf acc x + (if x = y then d else 0) := by
  intro acc
  induction acc with
  | nil =>
    intro x _
    rw [List.nil_append, aux_scoreOf_cons, aux_scoreOf_nil]
    by_cases hxy : x = y
    · rw [if_pos (show (((y, it, d) : Nat × HItem × ℚ).1 == x) = true from by
        simpa using hxy.symm), if_pos hxy]
      ring
    · rw [if_neg (show ¬ (((y, it, d) : Nat × HItem × ℚ).1 == x) = true from by
        simpa using fun h => hxy h.symm), if_neg hxy]
      ring
  | cons e es ih =>
    intro x hfresh
    rw [List.cons_append, aux_scoreOf_cons, aux_scoreOf_cons]
    by_cases hex : e.1 = x
    · rw [if_pos (by simpa using hex), if_pos (by simpa using hex)]
      have hxy : ¬ x = y := fun hc =>
        hfresh e (List.mem_cons_self _ _) (hex.trans hc)
      rw [if_neg hxy]
      ring
    · rw [if_neg (by simpa using hex), if_neg (by simpa using hex)]
      exact ih x (fun f hf => hfresh f (List.mem_cons_of_mem _ hf))

theorem aux_rrfUpsert_scoreOf (k r : Nat) (item : HItem)
    (acc : List (Nat × HItem × ℚ)) (x : Nat) :
    scoreOf (rrfUpsert k r item acc) x =
      scoreOf acc x + (if x = item.id then 1 / ((k : ℚ) + r) else 0) := by
  unfold rrfUpsert
  by_cases hc : acc.any (fun e => e.1 == item.id)
  · rw [if_pos hc, aux_scoreOf_map_update]
    have hfound : ∃ e ∈ acc, e.1 = item.id := by
      simpa using hc
    by_cases hxi : x = item.id
    · rw [if_pos ⟨hxi, by rw [hxi]; exact hfound⟩, if_pos hxi]
    · rw [if_neg (by tauto), if_neg hxi]
  · have hfresh : ∀ e ∈ acc, e.1 ≠ item.id := by
      intro e he hey
      exact hc (List.any_eq_true.mpr ⟨e, he, by simpa using hey⟩)
    rw [if_neg hc, aux_scoreOf_append_fresh item.id item (1 / ((k : ℚ) + r)) acc x hfresh]

theorem aux_rfindPara_bounds (text : List Char) (a b p : Nat)
    (h : rfindPara text a b = some p) : a ≤ p ∧ p + 2 ≤ b := by
  unfold rfindPara at h
  have hmem := List.max?_mem (fun x y => max_choice x y) h
  have hf := (List.mem_filter.mp hmem).2
  simp only [Bool.and_eq_true, decide_eq_true_eq] at hf
  exact ⟨hf.1.1, hf.1.2⟩

theorem aux_sizeEnd_le (text : List Char) (S start : Nat) :
    sizeEnd text S start ≤ text.length := Nat.min_le_right _ _

theorem aux_chunkEnd_le (text : List Char) (S start : Nat) :
    chunkEnd text S start ≤ text.length := by
  have hmin := aux_sizeEnd_le text S start
  unfold chunkEnd
  split
  · split
    · rename_i p hp
      have h2 := (aux_rfindPara_bounds text _ _ p hp).2
      split
      · omega
      · exact hmin
    · exact hmin
  · exact hmin

theorem aux_chunkEnd_gt (text : List Char) (S start : Nat)
    (hS : 1 ≤ S) (h : start < text.length) : start < chunkEnd text S start := by
  have hmin : start < sizeEnd text S start := by
    unfold sizeEnd; omega
  unfold chunkEnd
  split
  · split
    · rename_i p _
      split
      · omega
      · exact hmin
    · exact hmin
  · exact hmin

theorem aux_nextStart_gt (O start e : Nat) (h : start < e) :
    start < nextStart O start e := by
  unfold nextStart
  split <;> omega

theorem aux_nextStart_le (O start e : Nat) : nextStart O start e ≤ e := by
  unfold nextStart
  split <;> omega

theorem aux_chunkLoop_nil (text : List Char) (S O fuel start : Nat)
    (h : text.length ≤ start) : chunkLoop text S O fuel start = [] := by
  cases fuel with
  | zero => rfl
  | succ n => simp only [chunkLoop]; rw [if_neg (by omega)]

theorem aux_chunkLoop_length (text : List Char) (S O : Nat) :
    ∀ fuel start, (chunkLoop text S O fuel start).length ≤ fuel := by
  intro fuel
  induction fuel with
  | zero => intro start; simp [chunkLoop]
  | succ n ih =>
    intro start
    simp only [chunkLoop]
    split
    · simpa using ih _
    · simp

theorem aux_chunkLoop_fuel (text : List Char) (S O : Nat) (hS : 1 ≤ S) :
    ∀ f1 f2 start, text.length ≤ start + f1 → text.length ≤ start + f2 →
      chunkLoop text S O f1 start = chunkLoop text S O f2 start := by
  intro f1
  induction f1 with
  | zero =>
    intro f2 start h1 _
    rw [aux_chunkLoop_nil text S O 0 start (by omega),
      aux_chunkLoop_nil text S O f2 start (by omega)]
  | succ n ih =>
    intro f2 start h1 h2
    by_cases hs : start < text.length
    · cases f2 with
      | zero => omega
      | succ m =>
        simp only [chunkLoop, if_pos hs]
        have he : start < chunkEnd text S start := aux_chunkEnd_gt text S start hS hs
        have hns : start < nextStart O start (chunkEnd text S start) :=
          aux_nextStart_gt _ _ _ he
        rw [ih m (nextStart O start (chunkEnd text S start)) (by omega) (by omega)]
    · rw [aux_chunkLoop_nil text S O _ start (by omega),
        aux_chunkLoop_nil text S O _ start (by omega)]

theorem aux_chunkLoop_cover (text : List Char) (S O : Nat) (hS : 1 ≤ S) :
    ∀ fuel start, text.length ≤ start + fuel →
      ∀ i, start ≤ i → i < text.length →
        ∃ p ∈ chunkLoop text S O fuel start, p.1 ≤ i ∧ i < p.2 := by
  intro fuel
  induction fuel with
  | zero => intro start h i hi hlen; omega
  | succ n ih =>
    intro start h i hi hlen
    have hs : start < text.length := by omega
    simp only [chunkLoop, if_pos hs]
    by_cases hie : i < chunkEnd text S start
    · exact ⟨(start, chunkEnd text S start), List.mem_cons_self _ _, hi, hie⟩
    · have he : start < chunkEnd text S start := aux_chunkEnd_gt text S start hS hs
      have hns : start < nextStart O start (chunkEnd text S start) :=
        aux_nextStart_gt _ _ _ he
      have hnle : nextStart O start (chunkEnd text S start) ≤ chunkEnd text S start :=
        aux_nextStart_le _ _ _
      obtain ⟨p, hp, hp1, hp2⟩ :=
        ih (nextStart O start (chunkEnd text S start)) (by omega) i (by omega) hlen
      exact ⟨p, List.mem_cons_of_mem _ hp, hp1, hp2⟩

theorem aux_chunkLoop_head? (text : List Char) (S O fuel start : Nat) :
    ∀ y ∈ (chunkLoop text S O fuel start).head?, y.1 = start := by
  intro y hy
  cases fuel with
  | zero => simp [chunkLoop] at hy
  | succ n =>
    simp only [chunkLoop] at hy
    split at hy
    · simp only [List.head?_cons, Option.mem_def, Option.some.injEq] at hy
      rw [← hy]
    · simp at hy

theorem aux_chunkLoop_chain (text : List Char) (S O : Nat) (hS : 1 ≤ S) :
    ∀ fuel start,
      List.Chain' (fun p q => q.1 ≤ p.2 ∧ p.1 < q.1) (chunkLoop text S O fuel start) := by
  intro fuel
  induction fuel with
  | zero => intro start; simp [chunkLoop]
  | succ n ih =>
    intro start
    simp only [chunkLoop]
    split
    · rename_i hs
      refine List.chain'_cons'.mpr ⟨?_, ih _⟩
      intro y hy
      have hhead := aux_chunkLoop_head? text S O n _ y hy
      have he : start < chunkEnd text S start := aux_chunkEnd_gt text S start hS hs
      have h1 : start < nextStart O start (chunkEnd text S start) :=
        aux_nextStart_gt _ _ _ he
      have h2 : nextStart O start (chunkEnd text S start) ≤ chunkEnd text S start :=
        aux_nextStart_le _ _ _
      constructor
      · simpa [hhead] using h2
      · simpa [hhead] using h1
    · exact List.chain'_nil

theorem aux_chunkLoop_bounds (text : List Char) (S O : Nat) (hS : 1 ≤ S) :
    ∀ fuel start, ∀ p ∈ chunkLoop text S O fuel start,
      p.1 < p.2 ∧ p.2 ≤ text.length := by
  intro fuel
  induction fuel with
  | zero => intro start p hp; simp [chunkLoop] at hp
  | succ n ih =>
    intro start p hp
    simp only [chunkLoop] at hp
    split at hp
    · rename_i hs
      rcases List.mem_cons.mp hp with hp | hp
      · subst hp
        exact ⟨aux_chunkEnd_gt text S start hS hs, aux_chunkEnd_le text S start⟩
      · exact ih _ p hp
    · simp at hp

/-- C8: for `len(T) > S` and `O < S` the chunks losslessly cover the text: every
character position lies in at least one chunk interval, consecutive chunks abut
or overlap (`next.start ≤ prev.end`) and appear in text order
(strictly increasing starts), every interval is nonempty and stays inside the
text, and the returned chunks are exactly the corresponding slices
`text[start:end]`. -/
theorem chunk_transcript_covers (text : List Char) (S O : Nat)
    (hOS : O < S) (hlen : S < text.length) :
    (∀ i, i < text.length → ∃ p ∈ chunkIntervals text S O, p.1 ≤ i ∧ i < p.2) ∧
    List.Chain' (fun p q => q.1 ≤ p.2 ∧ p.1 < q.1) (chunkIntervals text S O) ∧
    (∀ p ∈ chunkIntervals text S O, p.1 < p.2 ∧ p.2 ≤ text.length) ∧
    chunk_transcript text S O =
      (chunkIntervals text S O).map (fun p => (text.drop p.1).take (p.2 - p.1)) := by
  have hS : 1 ≤ S := by omega
  have hnotle : ¬ text.length ≤ S := by omega
  constructor
  · intro i hi
    simp only [chunkIntervals, if_neg hnotle]
    exact aux_chunkLoop_cover text S O hS text.length 0 (by omega) i (Nat.zero_le _) hi
  constructor
  · simp only [chunkIntervals, if_neg hnotle]
    exact aux_chunkLoop_chain text S O hS text.length 0
  constructor
  · simp only [chunkIntervals, if_neg hnotle]
    exact aux_chunkLoop_bounds text S O hS text.length 0
  · simp only [chunkIntervals, chunk_transcript, if_neg hnotle]
    have hne : chunkLoop text S O text.length 0 ≠ [] := by
      obtain ⟨m, hm⟩ : ∃ m, text.length = m + 1 := ⟨text.length - 1, by omega⟩
      rw [hm]
      simp only [chunkLoop]
      rw [if_pos (by omega)]
      exact List.cons_ne_nil _ _
    have hemp : ((chunkLoop text S O text.length 0).map
        (fun p => (text.drop p.1).take (p.2 - p.1))).isEmpty = false := by
      simp [List.isEmpty_iff, hne]
    simp [hemp]

/-- C8 witness: the three-character text `"abc"` with `S = 2`, `O = 1`. -/
theorem chunk_transcript_covers_witness :
    (∀ i, i < (['a', 'b', 'c'] : List Char).length →
      ∃ p ∈ chunkIntervals ['a', 'b', 'c'] 2 1, p.1 ≤ i ∧ i < p.2) ∧
    List.Chain' (fun p q => q.1 ≤ p.2 ∧ p.1 < q.1) (chunkIntervals ['a', 'b', 'c'] 2 1) ∧
    (∀ p ∈ chunkIntervals ['a', 'b', 'c'] 2 1,
      p.1 < p.2 ∧ p.2 ≤ (['a', 'b', 'c'] : List Char).length) ∧
    chunk_transcript ['a', 'b', 'c'] 2 1 =
      (chunkIntervals ['a', 'b', 'c'] 2 1).map
        (fun p => ((['a', 'b', 'c'] : List Char).drop p.1).take (p.2 - p.1)) :=
  chunk_transcript_covers ['a', 'b', 'c'] 2 1 (by decide) (by decide)

/-- C7 counterexample: with `S = 12`, `O = 10 < S` the adversarial 60-character
text makes the loop run 34 steps (one appended chunk per step), exceeding the
claimed bound `ceil(60 / (12 − 10)) + 1 = 31`: paragraph-break trimming can
shrink the advance of a step below `S − O`. -/
theorem chunk_transcript_steps_exceed_bound :
    10 < 12 ∧
    chunkCounterText.length = 60 ∧
    (chunk_transcript chunkCounterText 12 10).length = 34 ∧
    (chunkCounterText.length + (12 - 10) - 1) / (12 - 10) + 1 = 31 := by
  refine ⟨by decide, by decide, ?_, by decide⟩
  decide

/-- C7 (amended): for every `O < S` the loop terminates — fuel `len(T)` is
enough, and any extra fuel produces the same chunk list — and the chunk list
is produced within `max 1 (len T)` loop steps (one chunk per step).  The
spec's `ceil(len(T)/(S−O)) + 1` step bound does not hold in general (see the
counterexample): paragraph trimming can cut a step's advance below `S − O`. -/
theorem chunk_transcript_terminates (text : List Char) (S O : Nat) (hOS : O < S) :
    (∀ m, chunkLoop text S O (text.length + m) 0 = chunkLoop text S O text.length 0) ∧
    (chunk_transcript text S O).length ≤ max 1 text.length := by
  have hS : 1 ≤ S := by omega
  constructor
  · intro m
    exact aux_chunkLoop_fuel text S O hS (text.length + m) text.length 0
      (by omega) (by omega)
  · unfold chunk_transcript
    split
    · simp
    · rename_i hgt
      split
      · simp
      · have h := aux_chunkLoop_length text S O text.length 0
        simp only [List.length_map]
        omega

/-- C7 witness (for the amended claim): `S = 2`, `O = 1` on a 3-character text. -/
theorem chunk_transcript_terminates_witness :
    (∀ m, chunkLoop ['a', 'b', 'c'] 2 1 ((['a', 'b', 'c'] : List Char).length + m) 0 =
      chunkLoop ['a', 'b', 'c'] 2 1 (['a', 'b', 'c'] : List Char).length 0) ∧
    (chunk_transcript ['a', 'b', 'c'] 2 1).length ≤
      max 1 (['a', 'b', 'c'] : List Char).length :=
  chunk_transcript_terminates ['a', 'b', 'c'] 2 1 (by decide)

theorem aux_rrfAddFrom_scoreOf (k : Nat) (l : List HItem) :
    ∀ r (acc : List (Nat × HItem × ℚ)) x, (l.map (·.id)).Nodup →
      scoreOf (rrfAddFrom k r l acc) x =
        scoreOf acc x +
          (if x ∈ l.map (·.id)
           then 1 / ((k : ℚ) + ((r + (l.map (·.id)).indexOf x : Nat) : ℚ))
           else 0) := by
  induction l with
  | nil => intro r acc x _; simp [rrfAddFrom]
  | cons a t ih =>
    intro r acc x hnd
    simp only [List.map_cons] at hnd
    have hnd1 : a.id ∉ t.map (·.id) := (List.nodup_cons.mp hnd).1
    have hnd2 : (t.map (·.id)).Nodup := (List.nodup_cons.mp hnd).2
    simp only [rrfAddFrom]
    rw [ih (r + 1) (rrfUpsert k r a acc) x hnd2, aux_rrfUpsert_scoreOf]
    by_cases hxa : x = a.id
    · have hxt : x ∉ t.map (·.id) := by rw [hxa]; exact hnd1
      rw [if_pos hxa, if_neg hxt,
        if_pos (show x ∈ (a :: t).map (·.id) by simp [hxa])]
      have hidx : ((a :: t).map (·.id)).indexOf x = 0 := by
        simp only [List.map_cons, hxa]
        exact List.indexOf_cons_self _ _
      rw [hidx]
      norm_num
    · by_cases hxt : x ∈ t.map (·.id)
      · rw [if_neg hxa, if_pos hxt,
          if_pos (show x ∈ (a :: t).map (·.id) by simp [hxt])]
        have hidx : ((a :: t).map (·.id)).indexOf x = (t.map (·.id)).indexOf x + 1 := by
          simp only [List.map_cons]
          rw [List.indexOf_cons_ne _ (fun hc => hxa hc.symm)]
        rw [hidx]
        have harith : r + 1 + (t.map (·.id)).indexOf x =
            r + ((t.map (·.id)).indexOf x + 1) := by omega
        rw [harith]
        ring
      · rw [if_neg hxa, if_neg hxt,
          if_neg (show ¬ x ∈ (a :: t).map (·.id) by simp [hxa, hxt])]
        ring

theorem aux_rrfScoreMap_scoreOf (k : Nat) :
    ∀ (lists : List (List HItem)) (acc : List (Nat × HItem × ℚ)) x,
      (∀ l ∈ lists, (l.map (·.id)).Nodup) →
      scoreOf (lists.foldl (fun a l => rrfAddFrom k 1 l a) acc) x =
        scoreOf acc x + rrfSpecScore lists k x := by
  intro lists
  induction lists with
  | nil => intro acc x _; simp [rrfSpecScore]
  | cons l ls ih =>
    intro acc x hnd
    simp only [List.foldl_cons]
    rw [ih (rrfAddFrom k 1 l acc) x (fun m hm => hnd m (List.mem_cons_of_mem _ hm)),
      aux_rrfAddFrom_scoreOf k l 1 acc x (hnd l (List.mem_cons_self _ _))]
    unfold rrfSpecScore
    by_cases hx : x ∈ l.map (·.id)
    · rw [if_pos hx, List.filter_cons_of_pos (by simpa using hx), List.map_cons,
        List.sum_cons]
      have hAB : (1 : ℚ) / ((k : ℚ) + ((1 + (l.map (·.id)).indexOf x : Nat) : ℚ)) =
          1 / ((k : ℚ) + (((l.map (·.id)).indexOf x : Nat) + 1)) := by
        push_cast
        ring_nf
      rw [hAB]
      ring
    · rw [if_neg hx, List.filter_cons_of_neg (by simpa using hx)]
      ring

theorem aux_rrfUpsert_keys_mem (k r : Nat) (item : HItem)
    (acc : List (Nat × HItem × ℚ)) (x : Nat) :
    x ∈ (rrfUpsert k r item acc).map (·.1) ↔ x ∈ acc.map (·.1) ∨ x = item.id := by
  unfold rrfUpsert
  split
  · rename_i hc
    have hkeys : (acc.map (fun e =>
        if e.1 == item.id then (e.1, updateHItem e.2.1 item, e.2.2 + 1 / ((k : ℚ) + r))
        else e)).map (·.1) = acc.map (·.1) := by
      rw [List.map_map]
      apply List.map_congr_left
      intro e _
      show (if e.1 == item.id then
          ((e.1, updateHItem e.2.1 item, e.2.2 + 1 / ((k : ℚ) + r)) : Nat × HItem × ℚ)
          else e).1 = e.1
      split <;> rfl
    rw [hkeys]
    constructor
    · exact Or.inl
    · rintro (h | rfl)
      · exact h
      · obtain ⟨e, he, hei⟩ : ∃ e ∈ acc, (e.1 == item.id) = true := by
          simpa using hc
        exact List.mem_map.mpr ⟨e, he, by simpa using hei⟩
  · simp

theorem aux_rrfUpsert_keys_nodup (k r : Nat) (item : HItem)
    (acc : List (Nat × HItem × ℚ)) (h : (acc.map (·.1)).Nodup) :
    ((rrfUpsert k r item acc).map (·.1)).Nodup := by
  unfold rrfUpsert
  split
  · rename_i hc
    have hkeys : (acc.map (fun e =>
        if e.1 == item.id then (e.1, updateHItem e.2.1 item, e.2.2 + 1 / ((k : ℚ) + r))
        else e)).map (·.1) = acc.map (·.1) := by
      rw [List.map_map]
      apply List.map_congr_left
      intro e _
      show (if e.1 == item.id then
          ((e.1, updateHItem e.2.1 item, e.2.2 + 1 / ((k : ℚ) + r)) : Nat × HItem × ℚ)
          else e).1 = e.1
      split <;> rfl
    rw [hkeys]
    exact h
  · rename_i hc
    rw [List.map_append]
    have hni : item.id ∉ acc.map (·.1) := by
      intro hmem
      obtain ⟨e, he, hei⟩ := List.mem_map.mp hmem
      exact hc (List.any_eq_true.mpr ⟨e, he, by simpa using hei⟩)
    simp only [List.map_cons, List.map_nil]
    rw [List.nodup_append]
    exact ⟨h, List.nodup_singleton _, by simpa using hni⟩

theorem aux_rrfUpsert_coherent (k r : Nat) (item : HItem)
    (acc : List (Nat × HItem × ℚ)) (h : ∀ e ∈ acc, e.2.1.id = e.1) :
    ∀ e ∈ rrfUpsert k r item acc, e.2.1.id = e.1 := by
  unfold rrfUpsert
  split
  · intro e he
    obtain ⟨f, hf, hfe⟩ := List.mem_map.mp he
    by_cases hfi : (f.1 == item.id) = true
    · rw [if_pos hfi] at hfe
      rw [← hfe]
      show (updateHItem f.2.1 item).id = f.1
      show item.id = f.1
      exact (beq_iff_eq.mp hfi).symm
    · rw [if_neg hfi] at hfe
      rw [← hfe]
      exact h f hf
  · intro e he
    rcases List.mem_append.mp he with he | he
    · exact h e he
    · have : e = (item.id, item, 1 / ((k : ℚ) + r)) := by simpa using he
      rw [this]

theorem aux_rrfAddFrom_keys_mem (k : Nat) (l : List HItem) :
    ∀ r (acc : List (Nat × HItem × ℚ)) x,
      x ∈ (rrfAddFrom k r l acc).map (·.1) ↔ x ∈ acc.map (·.1) ∨ x ∈ l.map (·.id) := by
  induction l with
  | nil => intro r acc x; simp [rrfAddFrom]
  | cons a t ih =>
    intro r acc x
    simp only [rrfAddFrom]
    rw [ih (r + 1) (rrfUpsert k r a acc) x, aux_rrfUpsert_keys_mem]
    simp only [List.map_cons, List.mem_cons]
    tauto

theorem aux_rrfAddFrom_keys_nodup (k : Nat) (l : List HItem) :
    ∀ r (acc : List (Nat × HItem × ℚ)), (acc.map (·.1)).Nodup →
      ((rrfAddFrom k r l acc).map (·.1)).Nodup := by
  induction l with
  | nil => intro r acc h; exact h
  | cons a t ih =>
    intro r acc h
    exact ih (r + 1) _ (aux_rrfUpsert_keys_nodup k r a acc h)

theorem aux_rrfAddFrom_coherent (k : Nat) (l : List HItem) :
    ∀ r (acc : List (Nat × HItem × ℚ)), (∀ e ∈ acc, e.2.1.id = e.1) →
      ∀ e ∈ rrfAddFrom k r l acc, e.2.1.id = e.1 := by
  induction l with
  | nil => intro r acc h; exact h
  | cons a t ih =>
    intro r acc h
    exact ih (r + 1) _ (aux_rrfUpsert_coherent k r a acc h)

theorem aux_rrfScoreMap_keys_nodup (lists : List (List HItem)) (k : Nat) :
    ((rrfScoreMap lists k).map (·.1)).Nodup := by
  unfold rrfScoreMap
  suffices h : ∀ (ls : List (List HItem)) (acc : List (Nat × HItem × ℚ)),
      (acc.map (·.1)).Nodup →
      ((ls.foldl (fun a l => rrfAddFrom k 1 l a) acc).map (·.1)).Nodup by
    exact h lists [] (by simp)
  intro ls
  induction ls with
  | nil => intro acc h; exact h
  | cons l t ih =>
    intro acc h
    exact ih _ (aux_rrfAddFrom_keys_nodup k l 1 acc h)

theorem aux_rrfScoreMap_coherent (lists : List (List HItem)) (k : Nat) :
    ∀ e ∈ rrfScoreMap lists k, e.2.1.id = e.1 := by
  unfold rrfScoreMap
  suffices h : ∀ (ls : List (List HItem)) (acc : List (Nat × HItem × ℚ)),
      (∀ e ∈ acc, e.2.1.id = e.1) →
      ∀ e ∈ ls.foldl (fun a l => rrfAddFrom k 1 l a) acc, e.2.1.id = e.1 by
    exact h lists [] (by simp)
  intro ls
  induction ls with
  | nil => intro acc h; exact h
  | cons l t ih =>
    intro acc h
    exact ih _ (aux_rrfAddFrom_coherent k l 1 acc h)

theorem aux_rrfScoreMap_keys_mem (lists : List (List HItem)) (k : Nat) (x : Nat) :
    x ∈ (rrfScoreMap lists k).map (·.1) ↔ ∃ l ∈ lists, x ∈ l.map (·.id) := by
  unfold rrfScoreMap
  suffices h : ∀ (ls : List (List HItem)) (acc : List (Nat × HItem × ℚ)),
      x ∈ (ls.foldl (fun a l => rrfAddFrom k 1 l a) acc).map (·.1) ↔
        x ∈ acc.map (·.1) ∨ ∃ l ∈ ls, x ∈ l.map (·.id) by
    rw [h lists []]
    simp
  intro ls
  induction ls with
  | nil => intro acc; simp
  | cons l t ih =>
    intro acc
    simp only [List.foldl_cons]
    rw [ih (rrfAddFrom k 1 l acc), aux_rrfAddFrom_keys_mem]
    simp only [List.mem_cons]
    constructor
    · rintro ((h | h) | ⟨m, hm, hx⟩)
      · exact Or.inl h
      · exact Or.inr ⟨l, Or.inl rfl, h⟩
      · exact Or.inr ⟨m, Or.inr hm, hx⟩
    · rintro (h | ⟨m, hm | hm, hx⟩)
      · exact Or.inl (Or.inl h)
      · exact Or.inl (Or.inr (hm ▸ hx))
      · exact Or.inr ⟨m, hm, hx⟩

theorem aux_entry_scoreOf (m : List (Nat × HItem × ℚ)) (hnd : (m.map (·.1)).Nodup) :
    ∀ e ∈ m, scoreOf m e.1 = e.2.2 := by
  induction m with
  | nil => intro e he; simp at he
  | cons f fs ih =>
    intro e he
    simp only [List.map_cons, List.nodup_cons] at hnd
    rcases List.mem_cons.mp he with rfl | he
    · rw [aux_scoreOf_cons, if_pos (by simp)]
    · have hne : ¬ (f.1 == e.1) = true := by
        intro hb
        exact hnd.1 (beq_iff_eq.mp hb ▸ List.mem_map.mpr ⟨e, he, rfl⟩)
      rw [aux_scoreOf_cons, if_neg hne]
      exact ih hnd.2 e he

theorem aux_rrfAddFrom_fresh (k : Nat) (l : List HItem) :
    ∀ r (acc : List (Nat × HItem × ℚ)),
      (∀ it ∈ l, it.id ∉ acc.map (·.1)) → (l.map (·.id)).Nodup →
      rrfAddFrom k r l acc = acc ++ rankedEntries k r l := by
  induction l with
  | nil => intro r acc _ _; simp [rrfAddFrom, rankedEntries]
  | cons a t ih =>
    intro r acc hfresh hnd
    simp only [List.map_cons, List.nodup_cons] at hnd
    simp only [rrfAddFrom, rankedEntries]
    have hup : rrfUpsert k r a acc = acc ++ [(a.id, a, 1 / ((k : ℚ) + r))] := by
      unfold rrfUpsert
      rw [if_neg]
      intro hc
      obtain ⟨e, he, hei⟩ : ∃ e ∈ acc, (e.1 == a.id) = true := by simpa using hc
      exact hfresh a (List.mem_cons_self _ _)
        (List.mem_map.mpr ⟨e, he, by simpa using hei⟩)
    rw [hup, ih (r + 1) (acc ++ [(a.id, a, 1 / ((k : ℚ) + r))]) ?hf hnd.2]
    · rw [List.append_assoc]
      rfl
    · intro it hit
      rw [List.map_append, List.mem_append]
      rintro (h | h)
      · exact hfresh it (List.mem_cons_of_mem _ hit) h
      · have : it.id = a.id := by simpa using h
        exact hnd.1 (this ▸ List.mem_map.mpr ⟨it, hit, rfl⟩)

theorem aux_rankedEntries_score (k : Nat) (l : List HItem) :
    ∀ r e, e ∈ rankedEntries k r l → ∃ j : Nat, e.2.2 = 1 / ((k : ℚ) + ((r + j : Nat) : ℚ)) := by
  induction l with
  | nil => intro r e he; simp [rankedEntries] at he
  | cons a t ih =>
    intro r e he
    simp only [rankedEntries] at he
    rcases List.mem_cons.mp he with rfl | he
    · exact ⟨0, by norm_num⟩
    · obtain ⟨j, hj⟩ := ih (r + 1) e he
      exact ⟨j + 1, by rw [hj]; congr 1; push_cast; ring⟩

theorem aux_rankedEntries_sorted (k : Nat) (l : List HItem) :
    ∀ r, 1 ≤ r →
      List.Sorted (fun f e : Nat × HItem × ℚ => e.2.2 ≤ f.2.2) (rankedEntries k r l) := by
  induction l with
  | nil => intro r _; simp [rankedEntries]
  | cons a t ih =>
    intro r hr
    simp only [rankedEntries]
    rw [List.sorted_cons]
    refine ⟨?_, ih (r + 1) (by omega)⟩
    intro e he
    obtain ⟨j, hj⟩ := aux_rankedEntries_score k t (r + 1) e he
    rw [hj]
    show (1 : ℚ) / ((k : ℚ) + ((r + 1 + j : Nat) : ℚ)) ≤ 1 / ((k : ℚ) + r)
    apply one_div_le_one_div_of_le
    · have : (1 : ℚ) ≤ (r : ℚ) := by exact_mod_cast hr
      linarith
    · push_cast
      linarith

theorem aux_rankedEntries_pairs (k : Nat) (l : List HItem) :
    ∀ r, (rankedEntries k r l).map (fun e => e.2.1) = l := by
  induction l with
  | nil => intro r; rfl
  | cons a t ih =>
    intro r
    simp only [rankedEntries, List.map_cons]
    rw [ih (r + 1)]

theorem aux_rrf_merge_single (k : Nat) (l : List HItem)
    (hnd : (l.map (·.id)).Nodup) :
    rrf_merge [l] k = (rankedEntries k 1 l).map (fun e => (e.2.1, e.2.2)) := by
  unfold rrf_merge rrfScoreMap
  simp only [List.foldl_cons, List.foldl_nil]
  rw [aux_rrfAddFrom_fresh k l 1 [] (by simp) hnd, List.nil_append]
  rw [List.Sorted.insertionSort_eq (aux_rankedEntries_sorted k l 1 (by omega))]

/-- C1: for ranked lists whose per-list item ids are unique, every entry of
`_rrf_merge`'s output carries as `rrf_score` exactly the sum, over the lists
containing its id, of `1/(60 + rank)` with `rank` the 1-based position; the
output is sorted by fused score descending; an item id appears in the output
iff it appears in some input list; and on the spec's concrete instance — item 2
ranked 2nd by keyword and 1st by vector, item 1 only in the keyword list at
rank 1 — the fused scores are `1/62 + 1/61` and `1/61`, in that order. -/
theorem rrf_merge_fused_scores (lists : List (List HItem))
    (hnd : ∀ l ∈ lists, (l.map (·.id)).Nodup) :
    (∀ e ∈ rrf_merge lists 60, e.2 = rrfSpecScore lists 60 e.1.id) ∧
    List.Sorted (fun a b : HItem × ℚ => b.2 ≤ a.2) (rrf_merge lists 60) ∧
    (∀ x, (∃ l ∈ lists, x ∈ l.map (·.id)) ↔ ∃ e ∈ rrf_merge lists 60, e.1.id = x) ∧
    (rrf_merge [[⟨1, false⟩, ⟨2, false⟩], [⟨2, false⟩]] 60).map (fun e => (e.1.id, e.2)) =
      [(2, 1 / 62 + 1 / 61), (1, 1 / 61)] ∧
    rrfSpecScore [[⟨1, false⟩, ⟨2, false⟩], [⟨2, false⟩]] 60 2 = 1 / 62 + 1 / 61 ∧
    rrfSpecScore [[⟨1, false⟩, ⟨2, false⟩], [⟨2, false⟩]] 60 1 = 1 / 61 := by
  have hperm : List.Perm
      (List.insertionSort (fun f e : Nat × HItem × ℚ => e.2.2 ≤ f.2.2)
        (rrfScoreMap lists 60))
      (rrfScoreMap lists 60) :=
    List.perm_insertionSort _ _
  refine ⟨?_, ?_, ?_, by decide, by decide, by decide⟩
  · intro e he
    unfold rrf_merge at he
    obtain ⟨f, hf, hfe⟩ := List.mem_map.mp he
    have hfm : f ∈ rrfScoreMap lists 60 := hperm.mem_iff.mp hf
    have hco := aux_rrfScoreMap_coherent lists 60 f hfm
    have hsc : scoreOf (rrfScoreMap lists 60) f.1 = f.2.2 :=
      aux_entry_scoreOf _ (aux_rrfScoreMap_keys_nodup lists 60) f hfm
    have hspec : scoreOf (rrfScoreMap lists 60) f.1 = rrfSpecScore lists 60 f.1 := by
      have h := aux_rrfScoreMap_scoreOf 60 lists [] f.1 hnd
      simpa [rrfScoreMap, aux_scoreOf_nil] using h
    rw [← hfe]
    show f.2.2 = rrfSpecScore lists 60 (f.2.1.id)
    rw [hco, ← hsc, hspec]
  · unfold rrf_merge
    haveI hTot : IsTotal (Nat × HItem × ℚ) (fun f e => e.2.2 ≤ f.2.2) :=
      ⟨fun a b => le_total b.2.2 a.2.2⟩
    haveI hTrans : IsTrans (Nat × HItem × ℚ) (fun f e => e.2.2 ≤ f.2.2) :=
      ⟨fun a b c hab hbc => le_trans hbc hab⟩
    have hsorted := List.sorted_insertionSort (fun f e : Nat × HItem × ℚ => e.2.2 ≤ f.2.2)
      (rrfScoreMap lists 60)
    rw [List.Sorted, List.pairwise_map]
    exact hsorted
  · intro x
    rw [aux_rrfScoreMap_keys_mem lists 60 x |>.symm]
    constructor
    · intro hmem
      obtain ⟨f, hf, hfx⟩ := List.mem_map.mp hmem
      have hfs : f ∈ List.insertionSort (fun f e : Nat × HItem × ℚ => e.2.2 ≤ f.2.2)
          (rrfScoreMap lists 60) := hperm.mem_iff.mpr hf
      refine ⟨(f.2.1, f.2.2), ?_, ?_⟩
      · unfold rrf_merge
        exact List.mem_map.mpr ⟨f, hfs, rfl⟩
      · show f.2.1.id = x
        rw [aux_rrfScoreMap_coherent lists 60 f hf, hfx]
    · rintro ⟨e, he, hex⟩
      unfold rrf_merge at he
      obtain ⟨f, hf, hfe⟩ := List.mem_map.mp he
      have hfm : f ∈ rrfScoreMap lists 60 := hperm.mem_iff.mp hf
      refine List.mem_map.mpr ⟨f, hfm, ?_⟩
      show f.1 = x
      rw [← aux_rrfScoreMap_coherent lists 60 f hfm]
      have : e.1 = f.2.1 := by rw [← hfe]
      rw [← hex, this]

/-- C1 witness: the concrete two-list instance has per-list unique ids, and the
theorem instantiates to it. -/
theorem rrf_merge_fused_scores_witness :
    (rrf_merge [[⟨1, false⟩, ⟨2, false⟩], [⟨2, false⟩]] 60).map (fun e => (e.1.id, e.2)) =
      [(2, 1 / 62 + 1 / 61), (1, 1 / 61)] ∧
    ∀ e ∈ rrf_merge [[⟨1, false⟩, ⟨2, false⟩], [⟨2, false⟩]] 60,
      e.2 = rrfSpecScore [[⟨1, false⟩, ⟨2, false⟩], [⟨2, false⟩]] 60 e.1.id := by
  have h := rrf_merge_fused_scores [[⟨1, false⟩, ⟨2, false⟩], [⟨2, false⟩]]
    (by decide)
  exact ⟨h.2.2.2.1, h.1⟩

theorem aux_rankedEntries_length (k : Nat) (l : List HItem) :
    ∀ r, (rankedEntries k r l).length = l.length := by
  induction l with
  | nil => intro r; rfl
  | cons a t ih =>
    intro r
    simp only [rankedEntries, List.length_cons, ih (r + 1)]

theorem aux_rrf_merge_length (lists : List (List HItem)) (k : Nat) :
    (rrf_merge lists k).length = (rrfScoreMap lists k).length := by
  unfold rrf_merge
  rw [List.length_map]
  exact (List.perm_insertionSort _ _).length_eq

theorem aux_rrf_merge_ne_nil (lists : List (List HItem)) (k : Nat)
    (l : List HItem) (hl : l ∈ lists) (hne : l ≠ []) : rrf_merge lists k ≠ [] := by
  intro hcon
  obtain ⟨a, t, rfl⟩ : ∃ a t, l = a :: t := by
    cases l with
    | nil => exact absurd rfl hne
    | cons a t => exact ⟨a, t, rfl⟩
  have hmem : a.id ∈ (rrfScoreMap lists k).map (·.1) :=
    (aux_rrfScoreMap_keys_mem lists k a.id).mpr ⟨a :: t, hl, by simp⟩
  have hlen0 : (rrfScoreMap lists k).length = 0 := by
    have := aux_rrf_merge_length lists k
    rw [hcon] at this
    simpa using this.symm
  rw [List.length_eq_zero.mp hlen0] at hmem
  simp at hmem

/-- C6: a failing search source is caught and simply omitted from fusion —
running with a failed source equals running with that source absent (or empty)
— so the other source is never aborted; with a failing vector source the
returned item ids are exactly the keyword results' ids in their keyword
relevance order; and the hybrid search returns the empty list exactly when
every source failed or returned nothing (it never raises: the model is a total
function).  `kws`/`vecs` are the two sources' result lists; as in the code,
each holds at most `limit` rows (the SQL `LIMIT`/top-`k`), keyword ids are
unique (one row per matched item), and `get_item_fn` returns a row carrying
the id it was asked for. -/
theorem aux_search_hybrid_eq (kw : SourceOutcome) (vec : Option SourceOutcome)
    (g : Nat → Option HItem) (limit : Nat) :
    search_hybrid kw vec g limit =
      if (aux_hybrid_lists kw vec).isEmpty then []
      else ((rrf_merge (aux_hybrid_lists kw vec) 60).take limit).map (fun e =>
        if e.1.hasSessionFile then e.1
        else match g e.1.id with
          | some full => full
          | none => e.1) := rfl

theorem aux_search_hybrid_ne_nil (kw : SourceOutcome) (vec : Option SourceOutcome)
    (g : Nat → Option HItem) (limit : Nat) (l : List HItem)
    (hmem : l ∈ aux_hybrid_lists kw vec) (hne : l ≠ []) (hlim1 : 1 ≤ limit) :
    search_hybrid kw vec g limit ≠ [] := by
  rw [aux_search_hybrid_eq]
  rw [if_neg (by
    intro hemp
    rw [List.isEmpty_iff] at hemp
    rw [hemp] at hmem
    simp at hmem)]
  rw [Ne, List.map_eq_nil_iff, List.take_eq_nil_iff]
  push_neg
  exact ⟨by omega, aux_rrf_merge_ne_nil _ 60 l hmem hne⟩

theorem aux_enrich_ids (g : Nat → Option HItem)
    (hg : ∀ n it, g n = some it → it.id = n) (m : List (HItem × ℚ)) :
    ((m.map (fun e =>
        if e.1.hasSessionFile then e.1
        else match g e.1.id with
          | some full => full
          | none => e.1)).map (·.id)) = m.map (·.1.id) := by
  rw [List.map_map]
  apply List.map_congr_left
  intro e _
  show (if e.1.hasSessionFile then e.1
    else match g e.1.id with
      | some full => full
      | none => e.1).id = e.1.id
  split
  · rfl
  · split
    · rename_i full hfull
      exact hg _ full hfull
    · rfl

/-- C6: a failing search source is caught and simply omitted from fusion —
running with a failed source equals running with that source absent (or empty)
— so the other source is never aborted; with a failing vector source the
returned item ids are exactly the keyword results' ids in their keyword
relevance order; and the hybrid search returns the empty list exactly when
every source failed or returned nothing (it never raises: the model is a total
function).  `kws`/`vecs` are the two sources' result lists; as in the code,
each holds at most `limit` rows (the SQL `LIMIT`/top-`k`), keyword ids are
unique (one row per matched item), and `get_item_fn` returns a row carrying
the id it was asked for. -/
theorem search_hybrid_failure_isolation (kws vecs : List HItem)
    (g : Nat → Option HItem) (limit : Nat)
    (hnd : (kws.map (·.id)).Nodup)
    (hklen : kws.length ≤ limit)
    (hvlen : vecs.length ≤ limit)
    (hg : ∀ n it, g n = some it → it.id = n) :
    (∀ (kw : SourceOutcome) (vec : Option SourceOutcome),
      search_hybrid kw (some .failed) g limit = search_hybrid kw none g limit) ∧
    (∀ (vec : Option SourceOutcome),
      search_hybrid .failed vec g limit = search_hybrid (.ok []) vec g limit) ∧
    ((search_hybrid (.ok kws) (some .failed) g limit).map (·.id) = kws.map (·.id)) ∧
    (search_hybrid (.ok kws) (some (.ok vecs)) g limit = [] ↔ kws = [] ∧ vecs = []) ∧
    (search_hybrid (.ok kws) (some .failed) g limit = [] ↔ kws = []) ∧
    (search_hybrid (.ok kws) none g limit = [] ↔ kws = []) ∧
    (search_hybrid .failed (some (.ok vecs)) g limit = [] ↔ vecs = []) ∧
    search_hybrid .failed (some .failed) g limit = [] ∧
    search_hybrid .failed none g limit = [] := by
  have hlim : ∀ (l : List HItem), l ≠ [] → l.length ≤ limit → 1 ≤ limit := by
    intro l hne hlen
    cases l with
    | nil => exact absurd rfl hne
    | cons a t => simp at hlen; omega
  have hcons : ∀ (l : List HItem), l ≠ [] → ∃ a t, l = a :: t := by
    intro l hne
    cases l with
    | nil => exact absurd rfl hne
    | cons a t => exact ⟨a, t, rfl⟩
  refine ⟨?_, ?_, ?_, ?_, ?_, ?_, ?_, rfl, rfl⟩
  · intro kw vec
    cases kw <;> rfl
  · intro vec
    rcases vec with _ | vec
    · rfl
    · cases vec <;> rfl
  · cases kws with
    | nil => rfl
    | cons a t =>
      have hmerge := aux_rrf_merge_single 60 (a :: t) hnd
      rw [aux_search_hybrid_eq]
      have hlists : aux_hybrid_lists (.ok (a :: t)) (some .failed) = [a :: t] := rfl
      rw [hlists, if_neg (by simp), hmerge]
      rw [List.take_of_length_le (by
        rw [List.length_map, aux_rankedEntries_length]
        exact le_of_eq_of_le rfl hklen)]
      rw [aux_enrich_ids g hg]
      refine Eq.trans ?_ (congrArg (List.map (·.id)) (aux_rankedEntries_pairs 60 (a :: t) 1))
      rw [List.map_map, List.map_map]
      exact List.map_congr_left (fun e _ => rfl)
  · constructor
    · intro hc
      constructor
      · by_contra hk
        obtain ⟨a, t, rfl⟩ := hcons kws hk
        refine aux_search_hybrid_ne_nil (.ok (a :: t)) (some (.ok vecs)) g limit
          (a :: t) ?_ (List.cons_ne_nil _ _) (hlim _ hk hklen) hc
        exact List.mem_append.mpr (Or.inl (by simp [aux_hybrid_lists]))
      · by_contra hv
        obtain ⟨a, t, rfl⟩ := hcons vecs hv
        refine aux_search_hybrid_ne_nil (.ok kws) (some (.ok (a :: t))) g limit
          (a :: t) ?_ (List.cons_ne_nil _ _) (hlim _ hv hvlen) hc
        exact List.mem_append.mpr (Or.inr (by simp [aux_hybrid_lists]))
    · rintro ⟨rfl, rfl⟩
      rfl
  · constructor
    · intro hc
      by_contra hk
      obtain ⟨a, t, rfl⟩ := hcons kws hk
      refine aux_search_hybrid_ne_nil (.ok (a :: t)) (some .failed) g limit
        (a :: t) ?_ (List.cons_ne_nil _ _) (hlim _ hk hklen) hc
      exact List.mem_append.mpr (Or.inl (by simp [aux_hybrid_lists]))
    · rintro rfl
      rfl
  · constructor
    · intro hc
      by_contra hk
      obtain ⟨a, t, rfl⟩ := hcons kws hk
      refine aux_search_hybrid_ne_nil (.ok (a :: t)) none g limit
        (a :: t) ?_ (List.cons_ne_nil _ _) (hlim _ hk hklen) hc
      exact List.mem_append.mpr (Or.inl (by simp [aux_hybrid_lists]))
    · rintro rfl
      rfl
  · constructor
    · intro hc
      by_contra hv
      obtain ⟨a, t, rfl⟩ := hcons vecs hv
      refine aux_search_hybrid_ne_nil .failed (some (.ok (a :: t))) g limit
        (a :: t) ?_ (List.cons_ne_nil _ _) (hlim _ hv hvlen) hc
      exact List.mem_append.mpr (Or.inr (by simp [aux_hybrid_lists]))
    · rintro rfl
      rfl

/-- C6 witness: one keyword row, a failing vector source, `limit = 10`: the
output ids are the keyword ids, and the empty-result equivalences hold. -/
theorem search_hybrid_failure_isolation_witness :
    ((search_hybrid (.ok [⟨5, false⟩]) (some .failed) (fun _ => none) 10).map (·.id) =
      ([⟨5, false⟩] : List HItem).map (·.id)) ∧
    (search_hybrid (.ok [⟨5, false⟩]) (some .failed) (fun _ => none) 10 = [] ↔
      ([⟨5, false⟩] : List HItem) = []) := by
  have h := search_hybrid_failure_isolation [⟨5, false⟩] [] (fun _ => none) 10
    (by decide) (by decide) (by decide) (fun n it hc => by cases hc)
  exact ⟨h.2.2.1, h.2.2.2.2.1⟩

theorem aux_dedupLoop_shape {α : Type} (sim : String → String → ℚ) (thr : ℚ)
    (key : α → String) :
    ∀ (rest kept : List α), ∃ suff,
      dedupKeepLoop sim thr key kept rest = kept ++ suff ∧ suff.Sublist rest := by
  intro rest
  induction rest with
  | nil => intro kept; exact ⟨[], by simp [dedupKeepLoop]⟩
  | cons item rest' ih =>
    intro kept
    simp only [dedupKeepLoop]
    split
    · obtain ⟨suff, heq, hsub⟩ := ih kept
      exact ⟨suff, heq, hsub.cons _⟩
    · obtain ⟨suff, heq, hsub⟩ := ih (kept ++ [item])
      refine ⟨item :: suff, ?_, hsub.cons₂ _⟩
      rw [heq, List.append_assoc]
      rfl

theorem aux_dedupLoop_kept_subset {α : Type} (sim : String → String → ℚ) (thr : ℚ)
    (key : α → String) (rest kept : List α) :
    ∀ y ∈ kept, y ∈ dedupKeepLoop sim thr key kept rest := by
  obtain ⟨suff, heq, _⟩ := aux_dedupLoop_shape sim thr key rest kept
  intro y hy
  rw [heq]
  exact List.mem_append_left _ hy

theorem aux_dedupLoop_complete {α : Type} (sim : String → String → ℚ) (thr : ℚ)
    (key : α → String) :
    ∀ (rest kept : List α) x, x ∈ rest →
      ∃ y ∈ dedupKeepLoop sim thr key kept rest,
        x = y ∨ thr ≤ sim (key x) (key y) := by
  intro rest
  induction rest with
  | nil => intro kept x hx; simp at hx
  | cons item rest' ih =>
    intro kept x hx
    simp only [dedupKeepLoop]
    rcases List.mem_cons.mp hx with rfl | hx
    · split
      · rename_i hany
        obtain ⟨kk, hkk, hsim⟩ : ∃ kk ∈ kept, thr ≤ sim (key x) (key kk) := by
          simpa using hany
        exact ⟨kk, aux_dedupLoop_kept_subset sim thr key rest' kept kk hkk, Or.inr hsim⟩
      · refine ⟨x, ?_, Or.inl rfl⟩
        exact aux_dedupLoop_kept_subset sim thr key rest' (kept ++ [x]) x (by simp)
    · split
      · exact ih kept x hx
      · exact ih (kept ++ [item]) x hx

theorem aux_dedupLoop_pairwise {α : Type} (sim : String → String → ℚ) (thr : ℚ)
    (key : α → String) :
    ∀ (rest kept : List α),
      List.Pairwise (fun a b => sim (key b) (key a) < thr) kept →
      List.Pairwise (fun a b => sim (key b) (key a) < thr)
        (dedupKeepLoop sim thr key kept rest) := by
  intro rest
  induction rest with
  | nil => intro kept h; exact h
  | cons item rest' ih =>
    intro kept h
    simp only [dedupKeepLoop]
    split
    · exact ih kept h
    · rename_i hany
      apply ih
      rw [List.pairwise_append]
      refine ⟨h, List.pairwise_singleton _ _, ?_⟩
      intro a ha b hb
      have hb' : b = item := by simpa using hb
      subst hb'
      have : ¬ thr ≤ sim (key b) (key a) := by
        intro hc
        exact hany (List.any_eq_true.mpr ⟨a, ha, by simpa using hc⟩)
      exact lt_of_not_le this

theorem aux_dedup_eq_loop {α : Type} (sim : String → String → ℚ) (thr : ℚ)
    (key : α → String) (items : List α) :
    deduplicate_by_similarity sim thr key items = dedupKeepLoop sim thr key [] items := by
  cases items with
  | nil => rfl
  | cons a t => rfl

theorem aux_dedupLoop_snoc {α : Type} (sim : String → String → ℚ) (thr : ℚ)
    (key : α → String) (x : α) :
    ∀ (xs kept : List α),
      dedupKeepLoop sim thr key kept (xs ++ [x]) =
        (if (dedupKeepLoop sim thr key kept xs).any
            (fun k => decide (thr ≤ sim (key x) (key k))) then
          dedupKeepLoop sim thr key kept xs
        else dedupKeepLoop sim thr key kept xs ++ [x]) := by
  intro xs
  induction xs with
  | nil =>
    intro kept
    simp only [List.nil_append, dedupKeepLoop]
  | cons a t ih =>
    intro kept
    simp only [List.cons_append, dedupKeepLoop]
    split
    · exact ih kept
    · exact ih (kept ++ [a])

/-- C5: the similarity dedup of a free-text category is a single forward pass:
the output is a sublist of the input (first-seen representatives in original
order); processing position `n` keeps the item iff no already-kept item's text
reaches similarity `≥ 0.8` to it; every input item is either kept or similar
(`≥ 0.8`) to some kept representative; any two kept items are below the
threshold in both orders (using symmetry); and merging two records whose
single decisions carry the identical summary yields exactly one decision.
Per §9 of the spec the similarity is any function with the stated contract
(symmetric, 0.0–1.0, 1.0 exactly on identical strings) in place of
`difflib.SequenceMatcher(...).ratio()`. -/
theorem similarity_dedup_forward_pass {α : Type} (sim : String → String → ℚ)
    (key : α → String) (items : List α)
    (hsymm : ∀ a b, sim a b = sim b a)
    (hid : ∀ a b, sim a b = 1 ↔ a = b) :
    (deduplicate_by_similarity sim simThreshold key items).Sublist items ∧
    (∀ n (h : n < items.length),
      deduplicate_by_similarity sim simThreshold key (items.take (n + 1)) =
        (if (deduplicate_by_similarity sim simThreshold key (items.take n)).any
            (fun k => decide (simThreshold ≤ sim (key (items.get ⟨n, h⟩)) (key k))) then
          deduplicate_by_similarity sim simThreshold key (items.take n)
        else deduplicate_by_similarity sim simThreshold key (items.take n)
          ++ [items.get ⟨n, h⟩])) ∧
    (∀ x ∈ items, ∃ y ∈ deduplicate_by_similarity sim simThreshold key items,
      x = y ∨ simThreshold ≤ sim (key x) (key y)) ∧
    List.Pairwise (fun a b => sim (key b) (key a) < simThreshold ∧
        sim (key a) (key b) < simThreshold)
      (deduplicate_by_similarity sim simThreshold key items) ∧
    (∀ d1 d2 : Decision, d1.summary = d2.summary →
      (merge_results sim [{ decisions := [d1] }, { decisions := [d2] }]).decisions = [d1]) := by
  refine ⟨?_, ?_, ?_, ?_, ?_⟩
  · rw [aux_dedup_eq_loop]
    obtain ⟨suff, heq, hsub⟩ := aux_dedupLoop_shape sim simThreshold key items []
    rw [heq]
    simpa using hsub
  · intro n h
    rw [aux_dedup_eq_loop, aux_dedup_eq_loop, List.take_succ]
    have hget : items[n]? = some (items.get ⟨n, h⟩) := by
      rw [List.getElem?_eq_getElem h]
      rfl
    rw [hget]
    simp only [Option.toList_some]
    exact aux_dedupLoop_snoc sim simThreshold key (items.get ⟨n, h⟩) (items.take n) []
  · intro x hx
    rw [aux_dedup_eq_loop]
    exact aux_dedupLoop_complete sim simThreshold key items [] x hx
  · rw [aux_dedup_eq_loop]
    have hpw := aux_dedupLoop_pairwise sim simThreshold key items [] List.Pairwise.nil
    apply hpw.imp
    intro a b hab
    exact ⟨hab, by rw [hsymm]; exact hab⟩
  · intro d1 d2 hsum
    have hsim : sim d2.summary d1.summary = 1 := (hid _ _).mpr hsum.symm
    have hstep : (decide (simThreshold ≤ sim d2.summary d1.summary)) = true := by
      rw [hsim]
      simp only [decide_eq_true_eq, simThreshold]
      norm_num
    simp only [merge_results, List.isEmpty_cons, Bool.false_eq_true, if_false,
      List.flatMap_cons, List.flatMap_nil, List.append_nil, List.nil_append]
    show (deduplicate_by_similarity sim simThreshold (·.summary) [d1, d2]) = [d1]
    rw [aux_dedup_eq_loop]
    simp only [dedupKeepLoop, List.any_nil, Bool.false_eq_true, if_false,
      List.nil_append, List.any_cons, List.any_nil, Bool.or_false]
    rw [hstep]
    rfl

/-- C5 witness: the discrete similarity (1 on identical strings, 0 otherwise)
satisfies the contract; two records with the identical decision summary
"Ship v2" merge into exactly one decision. -/
theorem similarity_dedup_forward_pass_witness :
    (deduplicate_by_similarity simEq simThreshold (fun d : Decision => d.summary)
      [⟨"Ship v2", "", "", ""⟩, ⟨"Hold v3", "", "", ""⟩]).Sublist
      [⟨"Ship v2", "", "", ""⟩, ⟨"Hold v3", "", "", ""⟩] ∧
    (merge_results simEq [{ decisions := [⟨"Ship v2", "a", "", ""⟩] },
        { decisions := [⟨"Ship v2", "b", "", ""⟩] }]).decisions =
      [⟨"Ship v2", "a", "", ""⟩] := by
  have h := similarity_dedup_forward_pass simEq (fun d : Decision => d.summary)
    [⟨"Ship v2", "", "", ""⟩, ⟨"Hold v3", "", "", ""⟩]
    (fun a b => by unfold simEq; by_cases hab : a = b <;> simp [hab, eq_comm])
    (fun a b => by unfold simEq; by_cases hab : a = b <;> simp [hab])
  exact ⟨h.1, h.2.2.2.2 ⟨"Ship v2", "a", "", ""⟩ ⟨"Ship v2", "b", "", ""⟩ rfl⟩

/-- C10 counterexample: the claim's conclusion "two strings differing only in
letter case … not … duplicates within one category" fails.  A similarity
meeting the spec's contract (symmetric, range 0–1, 1.0 exactly on identical
strings) that rates the case-variant pair at 0.9 — as `difflib`'s ratio does
for realistic texts such as "Use PostgreSQL for storage" vs
"use PostgreSQL for storage" (ratio ≈ 0.96 ≥ 0.8) — makes the case-sensitive
within-category pass drop the variant: case-sensitive comparison does not
imply case-variants survive. -/
theorem within_category_case_variant_dropped :
    (∀ a b, simCaseFold a b = simCaseFold b a) ∧
    (∀ a b, 0 ≤ simCaseFold a b ∧ simCaseFold a b ≤ 1) ∧
    (∀ a b, simCaseFold a b = 1 ↔ a = b) ∧
    strLower "Add API" = strLower "add api" ∧
    "Add API" ≠ "add api" ∧
    deduplicate_by_similarity simCaseFold simThreshold (fun s => s)
      ["Add API", "add api"] = ["Add API"] := by
  refine ⟨?_, ?_, ?_, by decide, by decide, by decide⟩
  · intro a b
    unfold simCaseFold
    by_cases h1 : a = b
    · rw [h1]
    · have hba : ¬ b = a := fun h => h1 h.symm
      rw [if_neg h1, if_neg hba]
      by_cases h2 : strLower a = strLower b
      · rw [if_pos h2, if_pos h2.symm]
      · have h2' : ¬ strLower b = strLower a := fun h => h2 h.symm
        rw [if_neg h2, if_neg h2']
  · intro a b
    unfold simCaseFold
    by_cases h1 : a = b
    · rw [if_pos h1]; norm_num
    · rw [if_neg h1]
      by_cases h2 : strLower a = strLower b
      · rw [if_pos h2]; norm_num
      · rw [if_neg h2]; norm_num
  · intro a b
    unfold simCaseFold
    by_cases h1 : a = b
    · rw [if_pos h1]; simpa using h1
    · rw [if_neg h1]
      by_cases h2 : strLower a = strLower b
      · rw [if_pos h2]
        constructor
        · intro hc; norm_num at hc
        · intro hc; exact absurd hc h1
      · rw [if_neg h2]
        constructor
        · intro hc; norm_num at hc
        · intro hc; exact absurd hc h1

/-- C10 (amended): the cross-category pass lowercases both the item's and the
decision's text before the 0.80 test — so an item whose lowercased text equals
a decision's lowercased text never survives it — while the within-category
pass compares the original texts: with two items it keeps the second iff its
case-sensitive similarity to the first is below 0.80.  Case-variants are thus
always restatements across categories, but within one category they are kept
only when their case-sensitive similarity stays below the threshold — not
unconditionally. -/
theorem cross_category_lowercase_vs_within {α β : Type} (sim : String → String → ℚ)
    (keyI : α → String) (keyR : β → String)
    (hid : ∀ a b, sim a b = 1 ↔ a = b) :
    (∀ (items : List α) (refs : List β) item,
      item ∈ cross_category_dedup sim simThreshold keyI keyR items refs →
      ∀ ref ∈ refs, strLower (keyI item) ≠ strLower (keyR ref)) ∧
    (∀ (x y : α),
      deduplicate_by_similarity sim simThreshold keyI [x, y] =
        (if simThreshold ≤ sim (keyI y) (keyI x) then [x] else [x, y])) := by
  constructor
  · intro items refs item hmem ref href heq
    unfold cross_category_dedup at hmem
    split at hmem
    · rename_i hguard
      rcases Bool.or_eq_true _ _ |>.mp hguard with hi | hr
      · rw [List.isEmpty_iff] at hi
        rw [hi] at hmem
        simp at hmem
      · rw [List.isEmpty_iff] at hr
        rw [hr] at href
        simp at href
    · have hf := (List.mem_filter.mp hmem).2
      rw [Bool.not_eq_eq_eq_not, Bool.not_true, List.any_eq_false] at hf
      have hrt : strLower (keyR ref) ∈ refs.map (fun r => strLower (keyR r)) :=
        List.mem_map.mpr ⟨ref, href, rfl⟩
      have := hf _ hrt
      rw [heq] at this
      have hone : sim (strLower (keyR ref)) (strLower (keyR ref)) = 1 := (hid _ _).mpr rfl
      rw [hone] at this
      simp only [decide_eq_true_eq, simThreshold] at this
      norm_num at this
  · intro x y
    rw [aux_dedup_eq_loop]
    simp only [dedupKeepLoop, List.any_nil, Bool.false_eq_true, if_false,
      List.nil_append, List.any_cons, Bool.or_false]
    by_cases hc : simThreshold ≤ sim (keyI y) (keyI x)
    · rw [if_pos (show (decide (simThreshold ≤ sim (keyI y) (keyI x))) = true from by
        simpa using hc), if_pos hc]
    · rw [if_neg (show ¬ (decide (simThreshold ≤ sim (keyI y) (keyI x))) = true from by
        simpa using hc), if_neg hc]
      rfl

/-- C10 (amended) witness: under the discrete contract similarity, an action
item lowercase-equal to a decision never survives the cross-category pass,
and within a category the second of two items is kept iff its case-sensitive
similarity to the first is below 0.80. -/
theorem cross_category_lowercase_vs_within_witness :
    (∀ item, item ∈ cross_category_dedup simEq simThreshold
        (fun a : ActionItem => a.description) (fun d : Decision => d.summary)
        [⟨"ship V2", "", ""⟩] [⟨"Ship v2", "", "", ""⟩] →
      ∀ ref ∈ ([⟨"Ship v2", "", "", ""⟩] : List Decision),
        strLower item.description ≠ strLower ref.summary) ∧
    deduplicate_by_similarity simEq simThreshold
        (fun a : ActionItem => a.description) [⟨"A", "", ""⟩, ⟨"a", "", ""⟩] =
      (if simThreshold ≤ simEq "a" "A" then [⟨"A", "", ""⟩]
       else [⟨"A", "", ""⟩, ⟨"a", "", ""⟩]) := by
  have h := cross_category_lowercase_vs_within simEq
    (fun a : ActionItem => a.description) (fun d : Decision => d.summary)
    (fun a b => by unfold simEq; by_cases hab : a = b <;> simp [hab])
  exact ⟨fun item hmem => h.1 [⟨"ship V2", "", ""⟩] [⟨"Ship v2", "", "", ""⟩] item hmem,
    h.2 ⟨"A", "", ""⟩ ⟨"a", "", ""⟩⟩

theorem aux_range5_filter_length (a b : Nat) (ha : a < 5) (hb : b < 5)
    (hne : a ≠ b) :
    ((List.range 5).filter (fun n => ! (n == a) && ! (n == b))).length = 3 := by
  interval_cases a <;> interval_cases b <;>
    first
    | exact absurd rfl hne
    | decide

theorem aux_process_fold (extract : List Char → ExtractionResult)
    (C : List (Nat × ExtractionResult)) :
    ∀ (chs : List (List Char)) (i0 : Nat) (acc : List ExtractionResult × List Nat),
      (List.enumFrom i0 chs).foldl
        (fun (acc : List ExtractionResult × List Nat) ic =>
          match C.find? (fun p => p.1 == ic.1) with
          | some p => (acc.1 ++ [p.2], acc.2)
          | none => (acc.1 ++ [extract ic.2], acc.2 ++ [ic.1]))
        acc =
      (acc.1 ++ (List.enumFrom i0 chs).map (fun ic =>
          match C.find? (fun p => p.1 == ic.1) with
          | some p => p.2
          | none => extract ic.2),
       acc.2 ++ ((List.enumFrom i0 chs).filter
          (fun ic => (C.find? (fun p => p.1 == ic.1)).isNone)).map (·.1)) := by
  intro chs
  induction chs with
  | nil => intro i0 acc; simp
  | cons c cs ih =>
    intro i0 acc
    rw [List.enumFrom_cons]
    simp only [List.foldl_cons, List.map_cons, List.filter_cons]
    cases hfind : C.find? (fun p => p.1 == (i0, c).1) with
    | some p =>
      simp only [hfind, Option.isSome_some, Option.isNone_some, Bool.false_eq_true,
        if_false]
      rw [ih (i0 + 1) (acc.1 ++ [p.2], acc.2)]
      simp [List.append_assoc]
    | none =>
      simp only [hfind, Option.isNone_none, if_true]
      rw [ih (i0 + 1) (acc.1 ++ [extract c], acc.2 ++ [i0])]
      simp [List.append_assoc]

theorem aux_enumFrom_getD (chs : List (List Char)) :
    ∀ i0 p, p ∈ List.enumFrom i0 chs → chs.getD (p.1 - i0) [] = p.2 := by
  induction chs with
  | nil => intro i0 p hp; simp at hp
  | cons c cs ih =>
    intro i0 p hp
    rw [List.enumFrom_cons] at hp
    rcases List.mem_cons.mp hp with rfl | hp
    · simp
    · have hge : i0 + 1 ≤ p.1 := by
        have := List.mem_enumFrom hp
        omega
      have := ih (i0 + 1) p hp
      have harith : p.1 - i0 = (p.1 - (i0 + 1)) + 1 := by omega
      rw [harith]
      simpa using this

theorem aux_filter_map_fst {β : Type} (p : Nat → Bool) :
    ∀ (l : List (Nat × β)),
      (l.filter (fun ic => p ic.1)).map (·.1) = (l.map (·.1)).filter p := by
  intro l
  induction l with
  | nil => rfl
  | cons a t ih =>
    simp only [List.filter_cons, List.map_cons]
    by_cases hp : p a.1
    · rw [if_pos hp, if_pos hp, List.map_cons, ih]
    · rw [if_neg hp, if_neg hp, ih]

/-- C3: resuming a transcript that splits into 5 chunks with 2 completed chunk
entries stored under the matching `(chunk_size, total_chunks)` invokes the
extraction collaborator exactly on the 3 non-completed chunk indices, in chunk
order, and the final result equals that of an uninterrupted run on the same
transcript; the uninterrupted run performs all 5 calls.  The chunk-progress
store itself is not among the provided sources; per §4.2 of the spec its
`get` result is the `prior` entry list, whose stored results are the ones the
collaborator produced for those chunks (`hra`/`hrb`). -/
theorem process_transcript_resume (sim : String → String → ℚ)
    (extract : List Char → ExtractionResult)
    (cleanup : ExtractionResult → List Char → ExtractionResult)
    (cfg : MConfig) (T : List Char) (fs S : Nat) (ea eb : ChunkEntry)
    (hS : (if fs != 0 then get_chunk_size cfg fs else cfg.max_chunk_size) = S)
    (hlen : S < T.length)
    (hchunks : (chunk_transcript T S cfg.chunk_overlap).length = 5)
    (hia : ea.chunk_index < 5) (hib : eb.chunk_index < 5)
    (hne : ea.chunk_index ≠ eb.chunk_index)
    (hpa : ea.chunk_size = S ∧ ea.total_chunks = 5)
    (hpb : eb.chunk_size = S ∧ eb.total_chunks = 5)
    (hra : ea.result = extract ((chunk_transcript T S cfg.chunk_overlap).getD ea.chunk_index []))
    (hrb : eb.result = extract ((chunk_transcript T S cfg.chunk_overlap).getD eb.chunk_index [])) :
    (process_transcript sim extract cleanup cfg T fs true [ea, eb]).1 =
      (process_transcript sim extract cleanup cfg T fs true []).1 ∧
    (process_transcript sim extract cleanup cfg T fs true [ea, eb]).2 =
      (List.range 5).filter
        (fun n => ! (n == ea.chunk_index || n == eb.chunk_index)) ∧
    (process_transcript sim extract cleanup cfg T fs true [ea, eb]).2.length = 3 ∧
    (process_transcript sim extract cleanup cfg T fs true []).2 = List.range 5 := by
  have hTne : T.isEmpty = false := by
    rw [List.isEmpty_eq_false]
    intro hc
    rw [hc] at hlen
    simp at hlen
  have hnotle : ¬ T.length ≤ S := by omega
  have hcond : (ea.total_chunks == (chunk_transcript T S cfg.chunk_overlap).length
      && ea.chunk_size == S) = true := by
    rw [hchunks]
    simp [hpa.1, hpa.2]
  set chs := chunk_transcript T S cfg.chunk_overlap with hchs
  set C : List (Nat × ExtractionResult) :=
    [(ea.chunk_index, ea.result), (eb.chunk_index, eb.result)] with hC
  have hrun : process_transcript sim extract cleanup cfg T fs true [ea, eb] =
      (cleanup (merge_results sim ((List.enumFrom 0 chs).map (fun ic =>
          match C.find? (fun p => p.1 == ic.1) with
          | some p => p.2
          | none => extract ic.2))) T,
        ((List.enumFrom 0 chs).filter
          (fun ic => (C.find? (fun p => p.1 == ic.1)).isNone)).map (·.1)) := by
    simp only [process_transcript, hTne, Bool.false_eq_true, if_false, hS]
    rw [if_neg hnotle]
    simp only [if_true, ← hchs, List.map_cons, List.map_nil]
    rw [if_pos hcond, ← hC]
    simp only [List.enum]
    rw [aux_process_fold extract C chs 0 ([], [])]
    simp
  have hfresh : process_transcript sim extract cleanup cfg T fs true [] =
      (cleanup (merge_results sim ((List.enumFrom 0 chs).map (fun ic =>
          extract ic.2))) T,
        ((List.enumFrom 0 chs).map (·.1))) := by
    simp only [process_transcript, hTne, Bool.false_eq_true, if_false, hS]
    rw [if_neg hnotle]
    simp only [← hchs, List.enum, if_true]
    rw [aux_process_fold extract [] chs 0 ([], [])]
    simp only [List.find?_nil, List.nil_append]
    simp only [Option.isNone_none, List.filter_true]
  have hmaps : (List.enumFrom 0 chs).map (fun ic =>
      match C.find? (fun p => p.1 == ic.1) with
      | some p => p.2
      | none => extract ic.2) =
      (List.enumFrom 0 chs).map (fun ic => extract ic.2) := by
    apply List.map_congr_left
    intro ic hic
    cases hfind : C.find? (fun p => p.1 == ic.1) with
    | none => rfl
    | some p =>
      have hkey0 := List.find?_some hfind
      have hkey : (p.1 == ic.1) = true := hkey0
      have hmem := List.mem_of_find?_eq_some hfind
      have hget : chs.getD ic.1 [] = ic.2 := by
        have := aux_enumFrom_getD chs 0 ic hic
        simpa using this
      show p.2 = extract ic.2
      rw [← hget, ← beq_iff_eq.mp hkey]
      rcases List.mem_cons.mp hmem with rfl | hmem
      · exact hra
      · have : p = (eb.chunk_index, eb.result) := by simpa using hmem
        rw [this]
        exact hrb
  have hp : ∀ n, (C.find? (fun q => q.1 == n)).isNone =
      (! (n == ea.chunk_index || n == eb.chunk_index)) := by
    intro n
    by_cases h1 : ea.chunk_index = n
    · rw [hC]
      rw [List.find?_cons_of_pos _ (by simpa using h1)]
      simp [h1]
    · rw [hC, List.find?_cons_of_neg _ (by simpa using h1)]
      by_cases h2 : eb.chunk_index = n
      · rw [List.find?_cons_of_pos _ (by simpa using h2)]
        simp [h2]
      · rw [List.find?_cons_of_neg _ (by simpa using h2)]
        simp [fun h => h1 (beq_iff_eq.mp h).symm, fun h => h2 (beq_iff_eq.mp h).symm,
          Ne.symm h1, Ne.symm h2]
  have hcalls : ((List.enumFrom 0 chs).filter
      (fun ic => (C.find? (fun p => p.1 == ic.1)).isNone)).map (·.1) =
      (List.range 5).filter (fun n => ! (n == ea.chunk_index || n == eb.chunk_index)) := by
    rw [show (fun ic : Nat × List Char => (C.find? (fun p => p.1 == ic.1)).isNone) =
        (fun ic : Nat × List Char =>
          (! (ic.1 == ea.chunk_index || ic.1 == eb.chunk_index))) from
      funext (fun ic => hp ic.1)]
    rw [aux_filter_map_fst (fun n => ! (n == ea.chunk_index || n == eb.chunk_index))
      (List.enumFrom 0 chs)]
    have hfst : (List.enumFrom 0 chs).map (·.1) = List.range 5 := by
      have := List.enumFrom_map_fst 0 chs
      rw [List.range_eq_range', ← hchunks]
      exact this
    rw [hfst]
  refine ⟨?_, ?_, ?_, ?_⟩
  · rw [hrun, hfresh]
    simp only [hmaps]
  · rw [hrun]
    exact hcalls
  · rw [hrun]
    simp only [hcalls]
    have hfl : (List.range 5).filter
        (fun n => ! (n == ea.chunk_index || n == eb.chunk_index)) =
        (List.range 5).filter
          (fun n => ! (n == ea.chunk_index) && ! (n == eb.chunk_index)) := by
      apply List.filter_congr
      intro n _
      rw [Bool.not_or]
    rw [hfl]
    exact aux_range5_filter_length ea.chunk_index eb.chunk_index hia hib hne
  · rw [hfresh]
    have hfst : (List.enumFrom 0 chs).map (·.1) = List.range 5 := by
      have := List.enumFrom_map_fst 0 chs
      rw [List.range_eq_range', ← hchunks]
      exact this
    exact hfst

/-- Witness for C3: on the concrete 50-character transcript split into five
10-character chunks with chunks 1 and 3 already completed, the resumed run
calls the collaborator exactly on chunks 0, 2, 4, produces the same record as
the uninterrupted run, and the uninterrupted run calls all five chunks. -/
theorem process_transcript_resume_witness :
    (process_transcript simEq c3ext (fun r _ => r) c3cfg fiveChunkText 0 true
        [c3ea, c3eb]).2 = [0, 2, 4] ∧
    (process_transcript simEq c3ext (fun r _ => r) c3cfg fiveChunkText 0 true
        [c3ea, c3eb]).1 =
      (process_transcript simEq c3ext (fun r _ => r) c3cfg fiveChunkText 0 true []).1 ∧
    (process_transcript simEq c3ext (fun r _ => r) c3cfg fiveChunkText 0 true []).2 =
      [0, 1, 2, 3, 4] := by
  have h := process_transcript_resume simEq c3ext (fun r _ => r) c3cfg fiveChunkText
    0 10 c3ea c3eb (by decide) (by decide) (by decide) (by decide) (by decide)
    (by decide) (by decide) (by decide) (by decide) (by decide)
  refine ⟨?_, h.1, ?_⟩
  · rw [h.2.1]
    decide
  · rw [h.2.2.2]
    decide

theorem aux_newItems_payload (s : String) :
    ∀ (todo : List (String × String × Option String × Option String × Option String))
      (nid : Nat) (seen : List (String × String)),
      (newItemsAux s nid seen todo).map itemPayload = specQueryableAux seen todo := by
  intro todo
  induction todo with
  | nil => intro nid seen; rfl
  | cons t rest ih =>
    intro nid seen
    obtain ⟨category, content, detail, owner, date⟩ := t
    simp only [newItemsAux, specQueryableAux]
    by_cases hc : seen.contains (category, content)
    · rw [if_pos hc, if_pos hc]
      exact ih nid seen
    · rw [if_neg hc, if_neg hc, List.map_cons, ih (nid + 1) ((category, content) :: seen)]
      rfl

theorem aux_newItems_mem (s : String) :
    ∀ (todo : List (String × String × Option String × Option String × Option String))
      (nid : Nat) (seen : List (String × String)),
      ∀ it ∈ newItemsAux s nid seen todo,
        it.session_id = s ∧ nid ≤ it.id ∧
          it.id < nid + (newItemsAux s nid seen todo).length := by
  intro todo
  induction todo with
  | nil =>
    intro nid seen it hit
    simp [newItemsAux] at hit
  | cons t rest ih =>
    intro nid seen it hit
    obtain ⟨category, content, detail, owner, date⟩ := t
    simp only [newItemsAux] at hit ⊢
    by_cases hc : seen.contains (category, content)
    · rw [if_pos hc] at hit ⊢
      exact ih nid seen it hit
    · rw [if_neg hc] at hit ⊢
      rw [List.length_cons]
      rcases List.mem_cons.mp hit with rfl | hit
      · exact ⟨rfl, Nat.le_refl _, Nat.lt_add_of_pos_right (Nat.succ_pos _)⟩
      · obtain ⟨h1, h2, h3⟩ := ih (nid + 1) ((category, content) :: seen) it hit
        exact ⟨h1, by omega, by omega⟩

theorem aux_newItems_nodup (s : String) :
    ∀ (todo : List (String × String × Option String × Option String × Option String))
      (nid : Nat) (seen : List (String × String)),
      ((newItemsAux s nid seen todo).map (fun it => it.id)).Nodup := by
  intro todo
  induction todo with
  | nil => intro nid seen; simp [newItemsAux]
  | cons t rest ih =>
    intro nid seen
    obtain ⟨category, content, detail, owner, date⟩ := t
    simp only [newItemsAux]
    by_cases hc : seen.contains (category, content)
    · rw [if_pos hc]
      exact ih nid seen
    · rw [if_neg hc]
      rw [List.map_cons, List.nodup_cons]
      refine ⟨?_, ih (nid + 1) ((category, content) :: seen)⟩
      intro hmem
      obtain ⟨jt, hjt, hid⟩ := List.mem_map.mp hmem
      have hb := (aux_newItems_mem s rest (nid + 1) ((category, content) :: seen) jt hjt).2.1
      have hj : jt.id = nid := hid
      omega

theorem aux_seen_step (s category content : String) (detail owner date : Option String)
    (st : StoreState) (seen : List (String × String))
    (hinv : ∀ cat cont, st.items.any (fun it =>
        it.session_id == s && it.category == cat && it.content == cont) =
      seen.contains (cat, cont)) :
    ∀ cat cont,
      (st.items ++ [(⟨st.nextItemId, s, category, content, detail, owner, date⟩ : ItemRow)]).any
        (fun it => it.session_id == s && it.category == cat && it.content == cont) =
      (((category, content) :: seen).contains (cat, cont)) := by
  intro cat cont
  rw [List.any_append, hinv cat cont]
  rw [Bool.eq_iff_iff]
  simp only [List.any_cons, List.any_nil, Bool.or_false, List.contains_cons,
    Bool.or_eq_true, Bool.and_eq_true, beq_iff_eq, Prod.mk.injEq]
  constructor
  · rintro (hP | ⟨⟨-, hcat⟩, hcont⟩)
    · exact Or.inr hP
    · exact Or.inl ⟨hcat.symm, hcont.symm⟩
  · rintro (⟨hcat, hcont⟩ | hP)
    · exact Or.inr ⟨⟨trivial, hcat.symm⟩, hcont.symm⟩
    · exact Or.inl hP

theorem aux_insertItems_items (s : String) :
    ∀ (todo : List (String × String × Option String × Option String × Option String))
      (st : StoreState) (seen : List (String × String)),
      (∀ cat cont, st.items.any (fun it =>
          it.session_id == s && it.category == cat && it.content == cont) =
        seen.contains (cat, cont)) →
      (insertItems s st todo).items = st.items ++ newItemsAux s st.nextItemId seen todo := by
  intro todo
  induction todo with
  | nil => intro st seen hinv; simp [insertItems, newItemsAux]
  | cons t rest ih =>
    intro st seen hinv
    obtain ⟨category, content, detail, owner, date⟩ := t
    simp only [insertItems, newItemsAux]
    rw [hinv category content]
    by_cases hc : seen.contains (category, content)
    · rw [if_pos hc, if_pos hc]
      exact ih st seen hinv
    · rw [if_neg hc, if_neg hc]
      rw [ih { st with
          items := st.items ++ [⟨st.nextItemId, s, category, content, detail, owner, date⟩],
          fts := st.fts ++ [⟨st.nextItemId, content, detail.getD ""⟩],
          nextItemId := st.nextItemId + 1 }
        ((category, content) :: seen)
        (aux_seen_step s category content detail owner date st seen hinv)]
      show st.items ++ [(⟨st.nextItemId, s, category, content, detail, owner, date⟩ : ItemRow)] ++
          newItemsAux s (st.nextItemId + 1) ((category, content) :: seen) rest =
        st.items ++ ⟨st.nextItemId, s, category, content, detail, owner, date⟩ ::
          newItemsAux s (st.nextItemId + 1) ((category, content) :: seen) rest
      rw [List.append_assoc, List.singleton_append]

theorem aux_insertItems_fts (s : String) :
    ∀ (todo : List (String × String × Option String × Option String × Option String))
      (st : StoreState) (seen : List (String × String)),
      (∀ cat cont, st.items.any (fun it =>
          it.session_id == s && it.category == cat && it.content == cont) =
        seen.contains (cat, cont)) →
      (insertItems s st todo).fts =
        st.fts ++ (newItemsAux s st.nextItemId seen todo).map ftsOf := by
  intro todo
  induction todo with
  | nil => intro st seen hinv; simp [insertItems, newItemsAux]
  | cons t rest ih =>
    intro st seen hinv
    obtain ⟨category, content, detail, owner, date⟩ := t
    simp only [insertItems, newItemsAux]
    rw [hinv category content]
    by_cases hc : seen.contains (category, content)
    · rw [if_pos hc, if_pos hc]
      exact ih st seen hinv
    · rw [if_neg hc, if_neg hc, List.map_cons]
      rw [ih { st with
          items := st.items ++ [⟨st.nextItemId, s, category, content, detail, owner, date⟩],
          fts := st.fts ++ [⟨st.nextItemId, content, detail.getD ""⟩],
          nextItemId := st.nextItemId + 1 }
        ((category, content) :: seen)
        (aux_seen_step s category content detail owner date st seen hinv)]
      show st.fts ++ [(⟨st.nextItemId, content, detail.getD ""⟩ : FtsRow)] ++
          (newItemsAux s (st.nextItemId + 1) ((category, content) :: seen) rest).map ftsOf =
        st.fts ++ ftsOf ⟨st.nextItemId, s, category, content, detail, owner, date⟩ ::
          (newItemsAux s (st.nextItemId + 1) ((category, content) :: seen) rest).map ftsOf
      rw [List.append_assoc, List.singleton_append]
      rfl

theorem aux_insertItems_next (s : String) :
    ∀ (todo : List (String × String × Option String × Option String × Option String))
      (st : StoreState) (seen : List (String × String)),
      (∀ cat cont, st.items.any (fun it =>
          it.session_id == s && it.category == cat && it.content == cont) =
        seen.contains (cat, cont)) →
      (insertItems s st todo).nextItemId =
        st.nextItemId + (newItemsAux s st.nextItemId seen todo).length := by
  intro todo
  induction todo with
  | nil => intro st seen hinv; simp [insertItems, newItemsAux]
  | cons t rest ih =>
    intro st seen hinv
    obtain ⟨category, content, detail, owner, date⟩ := t
    simp only [insertItems, newItemsAux]
    rw [hinv category content]
    by_cases hc : seen.contains (category, content)
    · rw [if_pos hc, if_pos hc]
      exact ih st seen hinv
    · rw [if_neg hc, if_neg hc, List.length_cons]
      rw [ih { st with
          items := st.items ++ [⟨st.nextItemId, s, category, content, detail, owner, date⟩],
          fts := st.fts ++ [⟨st.nextItemId, content, detail.getD ""⟩],
          nextItemId := st.nextItemId + 1 }
        ((category, content) :: seen)
        (aux_seen_step s category content detail owner date st seen hinv)]
      show st.nextItemId + 1 +
          (newItemsAux s (st.nextItemId + 1) ((category, content) :: seen) rest).length =
        st.nextItemId +
          ((newItemsAux s (st.nextItemId + 1) ((category, content) :: seen) rest).length + 1)
      omega

theorem aux_insertItems_emb_sessions (s : String) :
    ∀ (todo : List (String × String × Option String × Option String × Option String))
      (st : StoreState),
      (insertItems s st todo).embeddings = st.embeddings ∧
      (insertItems s st todo).sessions = st.sessions := by
  intro todo
  induction todo with
  | nil => intro st; exact ⟨rfl, rfl⟩
  | cons t rest ih =>
    intro st
    obtain ⟨category, content, detail, owner, date⟩ := t
    simp only [insertItems]
    by_cases hc : st.items.any (fun it =>
        it.session_id == s && it.category == category && it.content == content)
    · rw [if_pos hc]
      exact ih st
    · rw [if_neg hc]
      exact ih _

theorem aux_filter_nos_any (s cat cont : String) (l : List ItemRow) :
    (l.filter (fun it => ! it.session_id == s)).any (fun it =>
      it.session_id == s && it.category == cat && it.content == cont) = false := by
  by_cases hany : (l.filter (fun it => ! it.session_id == s)).any (fun it =>
      it.session_id == s && it.category == cat && it.content == cont)
  · exfalso
    obtain ⟨it, hmem, hp⟩ := List.any_eq_true.mp hany
    have hmf := List.mem_filter.mp hmem
    simp only [Bool.and_eq_true] at hp
    have h1 : (it.session_id == s) = true := hp.1.1
    have h2 := hmf.2
    rw [h1] at h2
    simp at h2
  · exact Bool.eq_false_iff.mpr hany

theorem aux_filter_nos_nil (s : String) (l : List ItemRow) :
    (l.filter (fun it => ! it.session_id == s)).filter
      (fun it => it.session_id == s) = [] := by
  induction l with
  | nil => rfl
  | cons a t ih =>
    simp only [List.filter_cons]
    by_cases h : a.session_id == s
    · rw [if_neg (by simp [h])]
      exact ih
    · rw [if_pos (by simp [h]), List.filter_cons, if_neg h]
      exact ih

theorem aux_filter_idem {α : Type} (p : α → Bool) (l : List α) :
    (l.filter p).filter p = l.filter p := by
  induction l with
  | nil => rfl
  | cons a t ih =>
    simp only [List.filter_cons]
    by_cases h : p a
    · rw [if_pos h, List.filter_cons, if_pos h, ih]
    · rw [if_neg h, ih]

theorem aux_newItems_filter_nil (s : String)
    (todo : List (String × String × Option String × Option String × Option String))
    (nid : Nat) (seen : List (String × String)) :
    (newItemsAux s nid seen todo).filter (fun it => ! it.session_id == s) = [] := by
  apply List.eq_nil_iff_forall_not_mem.mpr
  intro it hmem
  have h := List.mem_filter.mp hmem
  have hs := (aux_newItems_mem s todo nid seen it h.1).1
  have h2 := h.2
  rw [hs] at h2
  simp at h2

theorem aux_upsert_run (st : StoreState) (s pk inp outf fh now : String)
    (R : ExtractionResult) (fsz mc tc : Nat) :
    (upsert_session st s pk inp R outf fh fsz mc tc now).items =
      st.items.filter (fun it => ! it.session_id == s) ++
        newItemsAux s st.nextItemId [] (itemsToInsert R) ∧
    (upsert_session st s pk inp R outf fh fsz mc tc now).fts =
      st.fts.filter (fun f =>
        ! ((st.items.filter (fun it => it.session_id == s)).map (·.id)).contains f.rowid) ++
        (newItemsAux s st.nextItemId [] (itemsToInsert R)).map ftsOf ∧
    (upsert_session st s pk inp R outf fh fsz mc tc now).embeddings =
      st.embeddings.filter (fun e =>
        ! ((st.items.filter (fun it => it.session_id == s)).map (·.id)).contains e.item_id) ∧
    (upsert_session st s pk inp R outf fh fsz mc tc now).nextItemId =
      st.nextItemId + (newItemsAux s st.nextItemId [] (itemsToInsert R)).length := by
  have hb : upsert_session st s pk inp R outf fh fsz mc tc now =
      insertItems s
        { sessions := st.sessions.filter (fun x => ! x.id == s) ++
            [⟨s, pk, inp, outf, fh, now, fsz, mc, tc,
              R.decisions.length, R.ideas.length, R.questions.length,
              R.action_items.length, R.concepts.length, R.terms.length, R.tldr⟩],
          items := st.items.filter (fun it => ! it.session_id == s),
          nextItemId := st.nextItemId,
          embeddings := st.embeddings.filter (fun e =>
            ! ((st.items.filter (fun it => it.session_id == s)).map (·.id)).contains e.item_id),
          fts := st.fts.filter (fun f =>
            ! ((st.items.filter (fun it => it.session_id == s)).map (·.id)).contains f.rowid) }
        (itemsToInsert R) := rfl
  have hinv0 : ∀ cat cont,
      (st.items.filter (fun it => ! it.session_id == s)).any (fun it =>
        it.session_id == s && it.category == cat && it.content == cont) =
      (([] : List (String × String)).contains (cat, cont)) := by
    intro cat cont
    rw [aux_filter_nos_any]
    rfl
  rw [hb]
  refine ⟨?_, ?_, ?_, ?_⟩
  · exact aux_insertItems_items s (itemsToInsert R) _ [] hinv0
  · exact aux_insertItems_fts s (itemsToInsert R) _ [] hinv0
  · exact (aux_insertItems_emb_sessions s (itemsToInsert R) _).1
  · exact aux_insertItems_next s (itemsToInsert R) _ [] hinv0

theorem aux_upsert_sessionItems (st : StoreState) (s pk inp outf fh now : String)
    (R : ExtractionResult) (fsz mc tc : Nat) :
    sessionItems (upsert_session st s pk inp R outf fh fsz mc tc now) s =
      newItemsAux s st.nextItemId [] (itemsToInsert R) := by
  have h := (aux_upsert_run st s pk inp outf fh now R fsz mc tc).1
  unfold sessionItems
  rw [h, List.filter_append, aux_filter_nos_nil, List.nil_append]
  apply List.filter_eq_self.mpr
  intro it hit
  have hs := (aux_newItems_mem s (itemsToInsert R) st.nextItemId [] it hit).1
  simp [hs]

theorem aux_upsert_other_items (st : StoreState) (s pk inp outf fh now : String)
    (R : ExtractionResult) (fsz mc tc : Nat) :
    (upsert_session st s pk inp R outf fh fsz mc tc now).items.filter
      (fun it => ! it.session_id == s) =
    st.items.filter (fun it => ! it.session_id == s) := by
  rw [(aux_upsert_run st s pk inp outf fh now R fsz mc tc).1, List.filter_append,
    aux_filter_idem, aux_newItems_filter_nil, List.append_nil]

theorem aux_store_embeddings_fields (model : String) :
    ∀ (rows : List (Nat × List ℚ)) (st : StoreState),
      (store_embeddings st rows model).items = st.items ∧
      (store_embeddings st rows model).fts = st.fts ∧
      (store_embeddings st rows model).sessions = st.sessions ∧
      (store_embeddings st rows model).nextItemId = st.nextItemId := by
  intro rows
  induction rows with
  | nil => intro st; exact ⟨rfl, rfl, rfl, rfl⟩
  | cons r rest ih =>
    intro st
    exact ih { st with embeddings :=
      (st.embeddings.filter (fun e => ! (e.item_id == r.1 && e.model == model)))
      ++ [⟨r.1, model, r.2⟩] }

theorem aux_contains_mem (l : List Nat) (a : Nat) : l.contains a = true ↔ a ∈ l := by
  induction l with
  | nil => simp [List.contains]
  | cons b t ih =>
    rw [List.contains_cons]
    simp only [Bool.or_eq_true, beq_iff_eq, ih, List.mem_cons]

theorem aux_upsert_wf (st : StoreState) (s pk inp outf fh now : String)
    (R : ExtractionResult) (fsz mc tc : Nat) (hwf : StoreWF st) :
    StoreWF (upsert_session st s pk inp R outf fh fsz mc tc now) := by
  obtain ⟨hnd, hitems, hfts, hemb⟩ := hwf
  obtain ⟨hI, hF, hE, hN⟩ := aux_upsert_run st s pk inp outf fh now R fsz mc tc
  refine ⟨?_, ?_, ?_, ?_⟩
  · rw [hI, List.map_append, List.nodup_append]
    refine ⟨?_, ?_, ?_⟩
    · exact List.Nodup.sublist (List.Sublist.map _ (List.filter_sublist _)) hnd
    · exact aux_newItems_nodup s (itemsToInsert R) st.nextItemId []
    · intro a ha hb
      obtain ⟨it, hit, rfl⟩ := List.mem_map.mp ha
      obtain ⟨jt, hjt, hj⟩ := List.mem_map.mp hb
      have h1 := hitems it (List.mem_filter.mp hit).1
      have h2 := (aux_newItems_mem s (itemsToInsert R) st.nextItemId [] jt hjt).2.1
      omega
  · rw [hI, hN]
    intro it hit
    rcases List.mem_append.mp hit with h | h
    · have := hitems it (List.mem_filter.mp h).1
      omega
    · have := (aux_newItems_mem s (itemsToInsert R) st.nextItemId [] it h).2.2
      omega
  · rw [hF, hN]
    intro f hf
    rcases List.mem_append.mp hf with h | h
    · have := hfts f (List.mem_filter.mp h).1
      omega
    · obtain ⟨it, hit, rfl⟩ := List.mem_map.mp h
      have hb := (aux_newItems_mem s (itemsToInsert R) st.nextItemId [] it hit).2.2
      have hr : (ftsOf it).rowid = it.id := rfl
      omega
  · rw [hE, hN]
    intro e he
    have := hemb e (List.mem_filter.mp he).1
    omega

/-- C2: re-running `upsert_session` on a session replaces its index wholesale.
After the second call the session's queryable items are exactly those derived
from the second call's record (one row per distinct `(category, content)` key,
first occurrence's fields, in record order); no item, keyword-index (FTS) row,
or embedding bearing a first-call item id survives; every current item has its
FTS row; and items of other sessions are untouched.  `upsert_session` issues a
single `commit` at its end, so the delete-then-insert sequence is modelled — and
proved about — as one atomic state transition with no observable intermediate
state. -/
theorem upsert_session_replaces
    (st0 st1 stE st2 : StoreState)
    (s pk1 inp1 outf1 fh1 now1 pk2 inp2 outf2 fh2 now2 model : String)
    (R1 R2 : ExtractionResult) (fsz1 mc1 tc1 fsz2 mc2 tc2 : Nat)
    (embRows : List (Nat × List ℚ))
    (hwf : StoreWF st0)
    (h1 : st1 = upsert_session st0 s pk1 inp1 R1 outf1 fh1 fsz1 mc1 tc1 now1)
    (hE : stE = store_embeddings st1 embRows model)
    (h2 : st2 = upsert_session stE s pk2 inp2 R2 outf2 fh2 fsz2 mc2 tc2 now2) :
    (sessionItems st2 s).map itemPayload = specQueryableItems R2 ∧
    st2.items.filter (fun it => ! it.session_id == s) =
      st0.items.filter (fun it => ! it.session_id == s) ∧
    (∀ it ∈ st2.items, it.id ∉ (sessionItems st1 s).map (·.id)) ∧
    (∀ f ∈ st2.fts, f.rowid ∉ (sessionItems st1 s).map (·.id)) ∧
    (∀ e ∈ st2.embeddings, e.item_id ∉ (sessionItems st1 s).map (·.id)) ∧
    (∀ it ∈ sessionItems st2 s, ftsOf it ∈ st2.fts) := by
  have hfields := aux_store_embeddings_fields model embRows st1
  rw [← hE] at hfields
  obtain ⟨hEi, hEf, hEs, hEn⟩ := hfields
  have hwf1 : StoreWF st1 := by
    rw [h1]
    exact aux_upsert_wf st0 s pk1 inp1 outf1 fh1 now1 R1 fsz1 mc1 tc1 hwf
  have hidslt : ∀ i ∈ (sessionItems st1 s).map (·.id), i < st1.nextItemId := by
    intro i hi
    obtain ⟨it, hit, rfl⟩ := List.mem_map.mp hi
    exact hwf1.2.1 it (List.mem_filter.mp hit).1
  obtain ⟨hI2, hF2, hE2, hN2⟩ := aux_upsert_run stE s pk2 inp2 outf2 fh2 now2 R2 fsz2 mc2 tc2
  rw [← h2] at hI2 hF2 hE2 hN2
  have hold : (stE.items.filter (fun it => it.session_id == s)).map (·.id) =
      (sessionItems st1 s).map (·.id) := by
    rw [sessionItems, ← hEi]
  rw [hold] at hF2 hE2
  have hA2 : sessionItems st2 s = newItemsAux s stE.nextItemId [] (itemsToInsert R2) := by
    rw [h2]
    exact aux_upsert_sessionItems stE s pk2 inp2 outf2 fh2 now2 R2 fsz2 mc2 tc2
  refine ⟨?_, ?_, ?_, ?_, ?_, ?_⟩
  · rw [hA2, aux_newItems_payload s (itemsToInsert R2) stE.nextItemId []]
    rfl
  · rw [h2, aux_upsert_other_items stE s pk2 inp2 outf2 fh2 now2 R2 fsz2 mc2 tc2,
      hEi, h1, aux_upsert_other_items st0 s pk1 inp1 outf1 fh1 now1 R1 fsz1 mc1 tc1]
  · intro it hit
    rw [hI2] at hit
    rcases List.mem_append.mp hit with h | h
    · have hmf := List.mem_filter.mp h
      intro hmem
      obtain ⟨jt, hjt, hjid⟩ := List.mem_map.mp hmem
      have hji : jt ∈ st1.items := (List.mem_filter.mp hjt).1
      have hii : it ∈ st1.items := hEi ▸ hmf.1
      have heq := List.inj_on_of_nodup_map hwf1.1 hii hji hjid.symm
      have hs1 : (jt.session_id == s) = true := (List.mem_filter.mp hjt).2
      have hs2 := hmf.2
      rw [heq, hs1] at hs2
      simp at hs2
    · have hb := (aux_newItems_mem s (itemsToInsert R2) stE.nextItemId [] it h).2.1
      intro hmem
      have hlt := hidslt it.id hmem
      omega
  · intro f hf
    rw [hF2] at hf
    rcases List.mem_append.mp hf with h | h
    · have hmf := List.mem_filter.mp h
      intro hmem
      have hc : ((sessionItems st1 s).map (·.id)).contains f.rowid = true :=
        (aux_contains_mem _ _).mpr hmem
      have h2' := hmf.2
      rw [hc] at h2'
      simp at h2'
    · obtain ⟨it, hit, rfl⟩ := List.mem_map.mp h
      intro hmem
      have hb := (aux_newItems_mem s (itemsToInsert R2) stE.nextItemId [] it hit).2.1
      have hr : (ftsOf it).rowid = it.id := rfl
      have hlt := hidslt (ftsOf it).rowid hmem
      omega
  · intro e he
    rw [hE2] at he
    have hmf := List.mem_filter.mp he
    intro hmem
    have hc : ((sessionItems st1 s).map (·.id)).contains e.item_id = true :=
      (aux_contains_mem _ _).mpr hmem
    have h2' := hmf.2
    rw [hc] at h2'
    simp at h2'
  · intro it hit
    rw [hF2]
    apply List.mem_append.mpr
    right
    rw [hA2] at hit
    exact List.mem_map.mpr ⟨it, hit, rfl⟩

/-- Witness for C2: on a concrete store — empty, then indexed with a
decision-bearing record, embeddings stored for its item, then re-indexed with
an idea-bearing record — the session's payloads equal the second record's
queryable items and other-session items are unchanged, with every hypothesis
discharged concretely. -/
theorem upsert_session_replaces_witness :
    StoreWF c2st0 ∧
    ((sessionItems c2st2 "s").map itemPayload = specQueryableItems c2R2 ∧
     c2st2.items.filter (fun it => ! it.session_id == "s") =
       c2st0.items.filter (fun it => ! it.session_id == "s")) := by
  refine ⟨⟨by decide, by decide, by decide, by decide⟩, ?_⟩
  have h := upsert_session_replaces c2st0 c2st1 c2stE c2st2
    "s" "pk" "in" "out" "h1" "t1" "pk" "in" "out" "h2" "t2" "m"
    c2R1 c2R2 1 2 3 1 2 3 [(0, [1, 0])]
    ⟨by decide, by decide, by decide, by decide⟩ rfl rfl rfl
  exact ⟨h.1, h.2.1⟩
